import Mathlib

/-!
Verification development for the protolinter repository.

The definitions below are a shallow embedding of the Go sources:
  * `internal/parser/parser.go` — the structured-option decoder
    (`ParseProtoMessageValues` and its helpers, including the well-known-type
    marshallers `marshalTimestamp`, `marshalDuration`, `marshalBytes` and the
    snake-case/camel-case conversion used for `google.protobuf.FieldMask`);
  * `internal/checker/checker.go` — the rule engine (`checkMethods`,
    `checkMessages`, `checkMessageFields`, `checkEnums`,
    `shouldDescriptorBeSkipped`, `getNameForLogs`, option-driven rules);
  * `internal/checker/cmd.go` — `processResults` exit-status computation and
    `processFiles` compile/lookup loop;
  * `internal/config/config.go` — the configuration accessors used by the
    checker (`IsCheckExcluded` and friends).

Protobuf reflection values (`protoreflect.Message`, field descriptors, …) are
embedded as explicit inductive data.  Go `int64`/`int32` values are embedded as
`Int` with two's-complement wrap-around made explicit where Go arithmetic can
overflow (`wrap64`).  Functions that can fail return `Except String α` carrying
the same error text the Go code formats.  Mutation of a Go slice is embedded by
returning the final state of the slice next to the function result
(`encodeFieldMaskPaths`).
-/

namespace Protolinter

/-! ### Small Go-library helpers (strings, base64, url.Values) -/

/-- Go `strings.HasSuffix`, at the character level (for valid UTF-8 the byte
test and the character test agree). -/
def strHasSuffix (s suffix : String) : Bool := List.isSuffixOf suffix.data s.data

/-- Go `strings.TrimSuffix`: drop `suffix` when `s` ends with it. -/
def trimSuffix (s suffix : String) : String :=
  if strHasSuffix s suffix then ⟨s.data.take (s.data.length - suffix.data.length)⟩
  else s

/-- Go `strings.HasPrefix` (used for exclusion lists), at the character
level. -/
def goHasPre (s p : String) : Bool := List.isPrefixOf p.data s.data

/-- Go `strings.TrimPrefix`. -/
def goTrimPre (s p : String) : String :=
  if goHasPre s p then ⟨s.data.drop p.data.length⟩ else s

/-- The standard base64 alphabet (Go `base64.StdEncoding`). -/
def b64StdAlphabet : List Char :=
  "ABCDEFGHIJKLMNOPQRSTUVWXYZabcdefghijklmnopqrstuvwxyz0123456789+/".data

/-- The URL-safe base64 alphabet (Go `base64.URLEncoding`). -/
def b64UrlAlphabet : List Char :=
  "ABCDEFGHIJKLMNOPQRSTUVWXYZabcdefghijklmnopqrstuvwxyz0123456789-_".data

/-- Base64 encoding with padding, as produced by Go's `EncodeToString` for both
`StdEncoding` and `URLEncoding` (both are padded alphabets). Bytes are `Nat`s
below 256. -/
def b64Encode (alphabet : List Char) : List Nat → List Char
  | [] => []
  | [b1] =>
      [alphabet.getD (b1 / 4) 'A', alphabet.getD (b1 % 4 * 16) 'A', '=', '=']
  | [b1, b2] =>
      [alphabet.getD (b1 / 4) 'A', alphabet.getD (b1 % 4 * 16 + b2 / 16) 'A',
       alphabet.getD (b2 % 16 * 4) 'A', '=']
  | b1 :: b2 :: b3 :: rest =>
      alphabet.getD (b1 / 4) 'A' :: alphabet.getD (b1 % 4 * 16 + b2 / 16) 'A' ::
      alphabet.getD (b2 % 16 * 4 + b3 / 64) 'A' :: alphabet.getD (b3 % 64) 'A' ::
      b64Encode alphabet rest

/-- Go `url.Values` is a `map[string][]string`; embedded as an association list
with unique keys (all values are built from the empty map through `set`/`add`,
which preserve key uniqueness, so the list order is the only artefact). -/
abbrev UrlValues := List (String × List String)

/-- Go `url.Values.Set`: replace the values of `k` by the single value `v`. -/
def UrlValues.set (u : UrlValues) (k v : String) : UrlValues :=
  if (u.find? (·.1 = k)).isSome then
    u.map (fun p => if p.1 = k then (p.1, [v]) else p)
  else u ++ [(k, [v])]

/-- Go `url.Values.Add`: append `v` to the values of `k`. -/
def UrlValues.add (u : UrlValues) (k v : String) : UrlValues :=
  if (u.find? (·.1 = k)).isSome then
    u.map (fun p => if p.1 = k then (p.1, p.2 ++ [v]) else p)
  else u ++ [(k, [v])]

/-- Go `url.Values.Get`: first value for the key, or `""`. -/
def UrlValues.Get (u : UrlValues) (k : String) : String :=
  match u.find? (·.1 = k) with
  | some (_, v :: _) => v
  | _ => ""

/-- Go `url.Values.Has`. -/
def UrlValues.Has (u : UrlValues) (k : String) : Bool :=
  (u.find? (·.1 = k)).isSome

/-- The keys present in a `url.Values`. -/
def UrlValues.keys (u : UrlValues) : List String := u.map (·.1)

/-! ### Protobuf reflection data model

A `ProtoMessage` is the embedding of a `protoreflect.Message`: its descriptor
full name together with the descriptor's fields in declaration order, each
paired with its populated entry (`none` = not set; `m.Range` visits exactly the
set fields, in this model in list order, one admissible order for Go's
unspecified range order).  `FieldKind` carries the descriptor data
`parseProtoMessageFieldValue` consults (`Kind()`, `Enum()` for enum fields).
Numeric scalar kinds other than the ones the Go code switches on are covered by
`intK`, whose values render through the default `fmt.Sprint` branch
(floating-point scalars are outside this model; no claim involves them). -/

inductive FieldKind where
  | boolK
  | enumK (enumFullName : String) (valueNames : List (Int × String))
  | stringK
  | bytesK
  | messageK
  | intK
  deriving DecidableEq, Repr

/-- Embedding of a `protoreflect.FieldDescriptor` (the data the decoder uses):
`TextName()`, `JSONName()`/`HasJSONName()`, `Kind()`-related data, the value
descriptor kind for map fields (`MapValue()`), the field number, and the
containing oneof, when any, as an index. -/
structure FieldDesc where
  number : Nat
  textName : String
  jsonName : String
  hasJsonName : Bool
  kind : FieldKind
  mapValueKind : FieldKind := .intK
  oneofId : Option Nat := none
  deriving DecidableEq, Repr

mutual
inductive FieldValue where
  | vBool (b : Bool)
  | vEnum (n : Int)
  | vString (s : String)
  | vBytes (bs : List Nat)
  | vInt (i : Int)
  | vMsg (m : ProtoMessage)

inductive FieldEntry where
  | singular (v : FieldValue)
  | listOf (vs : List FieldValue)
  | mapOf (entries : List (FieldValue × FieldValue))

inductive ProtoMessage where
  | mk (fullName : String) (fields : List (FieldDesc × Option FieldEntry))
end

def ProtoMessage.fullName : ProtoMessage → String
  | .mk n _ => n

def ProtoMessage.fields : ProtoMessage → List (FieldDesc × Option FieldEntry)
  | .mk _ fs => fs

/-! ### `fmt.Sprint` modelling and the camel-case conversion -/

/-- Models Go's `fmt`/`Stringer` rendering of a whole message value
(`value.String()` in `encodeMessage`, reached only for the two opaque
passthrough types).  Go prints an implementation-defined textual form; the spec
treats it as an opaque raw rendering and no theorem below depends on its exact
text, so the model renders the descriptor full name. -/
def goSprintMessage (m : ProtoMessage) : String := m.fullName

/-- Result of `fmt.Sprint(value.Interface())` for the scalar values of this model
(the decoder's default conversion branch). -/
def sprintValue : FieldValue → String
  | .vBool b => if b then "true" else "false"
  | .vEnum n => toString n
  | .vString s => s
  | .vBytes bs => "[" ++ String.intercalate " " (bs.map toString) ++ "]"
  | .vInt i => toString i
  | .vMsg m => goSprintMessage m

/-- Result of `fmt.Sprint` of the protoreflect zero value of a kind (what
`Message.Get` yields for an unset scalar field, used by the wrapper branch). -/
def sprintZero : FieldKind → String
  | .boolK => "false"
  | .enumK _ _ => "0"
  | .stringK => ""
  | .bytesK => "[]"
  | .messageK => ""
  | .intK => "0"

/-- The loop body of `convertSnakeCaseToCamelCase` (parser.go:207-229): walk the
characters keeping the `isUnderscoreFound` flag; underscores are dropped and an
ASCII lower-case letter directly after an underscore is upper-cased by
subtracting `'a' - 'A'` = 32.  The Go loop walks bytes; on valid UTF-8 the
first byte of a multi-byte rune is never in `'a'..'z'`, so the character-level
walk below agrees with it. -/
def convertSnakeLoop : List Char → Bool → List Char
  | [], _ => []
  | c :: rest, isUnderscoreFound =>
    if c = '_' then convertSnakeLoop rest true
    else
      let isASCIILowerCaseLetter := decide ('a' ≤ c ∧ c ≤ 'z')
      let c' := if isUnderscoreFound && isASCIILowerCaseLetter then
                  Char.ofNat (c.toNat - 32)
                else c
      c' :: convertSnakeLoop rest false

/-- parser.go:207-229. -/
def convertSnakeCaseToCamelCase (s : String) : String :=
  ⟨convertSnakeLoop s.data false⟩

/-- The `google.protobuf.FieldMask` branch of `encodeMessage`
(parser.go:188-198): the loop `for i, v := range m.Paths` writes
`convertSnakeCaseToCamelCase(v)` back into `m.Paths[i]` — mutating the decoded
option message in place — and then joins the mutated list with commas.  The
embedding returns both the joined string and the final state of the `Paths`
slice. -/
def encodeFieldMaskPaths (paths : List String) : String × List String :=
  let final := paths.map convertSnakeCaseToCamelCase
  (String.intercalate "," final, final)

/-! ### Well-known-type marshallers (second compilation unit of parser.go) -/

def timestampMessageFullname : String := "google.protobuf.Timestamp"
def maxTimestampSeconds : Int := 253402300799
def minTimestampSeconds : Int := -6213559680013
def durationMessageFullname : String := "google.protobuf.Duration"
def secondsInNanos : Int := 999999999
def bytesMessageFullname : String := "google.protobuf.BytesValue"
def fieldMaskFullName : String := "google.protobuf.FieldMask"
def responseFieldFullName : String := "grpc.gateway.protoc_gen_openapiv2.options.Response"
def responseEntryFullName : String := "grpc.gateway.protoc_gen_openapiv2.options.Operation.ResponsesEntry"

/-- Go `appendInt`-style decimal rendering, zero-padded to `width` digits, the
sign preceding the padding (how `time.Format` renders each numeric verb). -/
def padNum (width : Nat) (n : Int) : String :=
  let digits := toString n.natAbs
  let padded :=
    if digits.length < width then
      String.mk (List.replicate (width - digits.length) '0') ++ digits
    else digits
  if n < 0 then "-" ++ padded else padded

/-- Proleptic-Gregorian civil date from days since 1970-01-01 (what
`time.Unix(...).UTC()` exposes through `Format`). -/
def civilFromDays (z0 : Int) : Int × Nat × Nat :=
  let z := z0 + 719468
  let era := Int.fdiv z 146097
  let doe := (z - era * 146097).toNat
  let yoe := (doe - doe / 1460 + doe / 36524 - doe / 146096) / 365
  let y := (yoe : Int) + era * 400
  let doy := doe - (365 * yoe + yoe / 4 - yoe / 100)
  let mp := (5 * doy + 2) / 153
  let d := doy - (153 * mp + 2) / 5 + 1
  let m := if mp < 10 then mp + 3 else mp - 9
  (if m ≤ 2 then y + 1 else y, m, d)

/-- Rendering of `time.Unix(secs, nanos).UTC().Format("2006-01-02T15:04:05.000000000")`,
for `0 ≤ nanos ≤ 999999999` (guaranteed by the range check before the call). -/
def formatTimestamp (secs nanos : Int) : String :=
  let days := Int.fdiv secs 86400
  let sod := (secs - days * 86400).toNat
  let (y, mo, d) := civilFromDays days
  padNum 4 y ++ "-" ++ padNum 2 mo ++ "-" ++ padNum 2 d ++ "T" ++
    padNum 2 (sod / 3600) ++ ":" ++ padNum 2 (sod % 3600 / 60) ++ ":" ++
    padNum 2 (sod % 60) ++ "." ++ padNum 9 nanos

/-- parser.go:262-287 on the two extracted integer fields: range-check seconds
and nanos, then format and trim trailing zero groups exactly as the Go code
does (`TrimSuffix "000"` twice, then `TrimSuffix ".000"`). -/
def marshalTimestampValues (secs nanos : Int) : Except String String :=
  if secs < minTimestampSeconds ∨ secs > maxTimestampSeconds then
    .error (timestampMessageFullname ++ ": seconds out of range " ++ toString secs)
  else if nanos < 0 ∨ nanos > secondsInNanos then
    .error (timestampMessageFullname ++ ": nanos out of range " ++ toString nanos)
  else
    .ok (trimSuffix (trimSuffix (trimSuffix (formatTimestamp secs nanos) "000") "000") ".000" ++ "Z")

/-- Two's-complement wrap into the signed 64-bit range, making Go `int64`
overflow explicit. -/
def wrap64 (x : Int) : Int :=
  (x + 9223372036854775808) % 18446744073709551616 - 9223372036854775808

def maxInt64 : Int := 9223372036854775807
def minInt64 : Int := -9223372036854775808

/-- Go helper `fmtFrac` of `time.Duration.String`: the low `prec` digits of `v`,
zero-padded, with the trailing zeros omitted (Go's loop only starts printing
once it meets a non-zero digit from the least-significant end); also returns
`v` shifted right by `prec` digits. -/
def fmtFrac (v : Nat) (prec : Nat) : List Char × Nat :=
  let digits := (padNum prec ((v % 10 ^ prec : Nat) : Int)).data
  ((digits.reverse.dropWhile (· = '0')).reverse, v / 10 ^ prec)

/-- Go `time.Duration.String()` for a signed 64-bit nanosecond count. -/
def durationString (d : Int) : String :=
  let neg := d < 0
  let u : Nat := d.natAbs
  if u < 1000000000 then
    if u = 0 then "0s"
    else
      let (prec, unit) : Nat × String :=
        if u < 1000 then (0, "ns")
        else if u < 1000000 then (3, "µs")
        else (6, "ms")
      let (frac, u') := fmtFrac u prec
      (if neg then "-" else "") ++ toString u' ++
        (if frac = [] then "" else "." ++ String.mk frac) ++ unit
  else
    let (frac, u1) := fmtFrac u 9
    let fracStr := if frac = [] then "" else "." ++ String.mk frac
    let secs := u1 % 60
    let u2 := u1 / 60
    let core :=
      if u2 = 0 then toString secs ++ fracStr ++ "s"
      else
        let mins := u2 % 60
        let u3 := u2 / 60
        if u3 = 0 then toString mins ++ "m" ++ toString secs ++ fracStr ++ "s"
        else toString u3 ++ "h" ++ toString mins ++ "m" ++ toString secs ++ fracStr ++ "s"
    (if neg then "-" else "") ++ core

/-- parser.go:289-314 on the two extracted integer fields.  Go computes
`d := Duration(secs) * Second` (64-bit multiplication that may wrap), flags
overflow when dividing back does not recover `secs` (Go integer division
truncates: `Int.tdiv`), adds the nanoseconds (again possibly wrapping), flags
sign-flip overflow, and on overflow returns the clamped extreme duration
rendered by `Duration.String`; it never returns an error. -/
def marshalDurationValues (secs nanos : Int) : String :=
  let d0 := wrap64 (secs * 1000000000)
  let overflow0 := Int.tdiv d0 1000000000 ≠ secs
  let d1 := wrap64 (d0 + nanos)
  let overflow := overflow0 ∨ (secs < 0 ∧ nanos < 0 ∧ d1 > 0) ∨
    (secs > 0 ∧ nanos > 0 ∧ d1 < 0)
  if overflow ∧ secs < 0 then durationString minInt64
  else if overflow ∧ secs > 0 then durationString maxInt64
  else durationString d1

/-! ### Field access on messages (`Message.Get`, `Fields().ByNumber/ByName`) -/

/-- Value of `m.Get(fds.ByNumber(num)).Int()` for a singular integer field: proto3
`Get` yields the zero value `0` when the field is not set. -/
def getIntField (m : ProtoMessage) (num : Nat) : Int :=
  match m.fields.find? (·.1.number = num) with
  | some (_, some (.singular (.vInt i))) => i
  | _ => 0

/-- Value of `m.Get(fds.ByNumber(num)).Bytes()` for a singular bytes field. -/
def getBytesField (m : ProtoMessage) (num : Nat) : List Nat :=
  match m.fields.find? (·.1.number = num) with
  | some (_, some (.singular (.vBytes bs))) => bs
  | _ => []

/-- The repeated-string field named `name` (`FieldMask.Paths`). -/
def getStringListField (m : ProtoMessage) (name : String) : List String :=
  match m.fields.find? (·.1.textName = name) with
  | some (_, some (.listOf vs)) =>
      vs.map (fun v => match v with | .vString s => s | _ => "")
  | _ => []

/-- parser.go:262-287 (`marshalTimestamp`): read fields 1 and 2 and marshal. -/
def marshalTimestamp (m : ProtoMessage) : Except String String :=
  marshalTimestampValues (getIntField m 1) (getIntField m 2)

/-- parser.go:289-314 (`marshalDuration`): read fields 1 and 2 and marshal;
the Go function always returns a nil error. -/
def marshalDuration (m : ProtoMessage) : Except String String :=
  .ok (marshalDurationValues (getIntField m 1) (getIntField m 2))

/-- parser.go:316-323 (`marshalBytes`): standard (padded) base64 of field 1. -/
def marshalBytes (m : ProtoMessage) : Except String String :=
  .ok (String.mk (b64Encode b64StdAlphabet (getBytesField m 1)))

/-- Result of `fmt.Sprint` of the wrapper types' `value` field obtained through
`value.Message().Get(fd.ByName("value"))` (zero value when unset). -/
def wrapperValueText (m : ProtoMessage) : String :=
  match m.fields.find? (·.1.textName = "value") with
  | some (_, some (.singular v)) => sprintValue v
  | some (fd, _) => sprintZero fd.kind
  | none => ""

/-- parser.go:168-204 (`encodeMessage`): dispatch on the message descriptor's
full name; well-known types marshal to one string, the two openapiv2 response
types pass through as their raw `fmt` rendering, everything else is an
"unsupported message type" error. -/
def encodeMessage (m : ProtoMessage) : Except String String :=
  if m.fullName = timestampMessageFullname then marshalTimestamp m
  else if m.fullName = durationMessageFullname then marshalDuration m
  else if m.fullName = bytesMessageFullname then marshalBytes m
  else if m.fullName = "google.protobuf.DoubleValue" ∨
          m.fullName = "google.protobuf.FloatValue" ∨
          m.fullName = "google.protobuf.Int64Value" ∨
          m.fullName = "google.protobuf.Int32Value" ∨
          m.fullName = "google.protobuf.UInt64Value" ∨
          m.fullName = "google.protobuf.UInt32Value" ∨
          m.fullName = "google.protobuf.BoolValue" ∨
          m.fullName = "google.protobuf.StringValue" then
    .ok (wrapperValueText m)
  else if m.fullName = fieldMaskFullName then
    .ok (encodeFieldMaskPaths (getStringListField m "paths")).1
  else if m.fullName = responseFieldFullName ∨ m.fullName = responseEntryFullName then
    .ok (goSprintMessage m)
  else
    .error ("unsupported message type: \"" ++ m.fullName ++ "\"")

/-- parser.go:28-52 (`parseProtoMessageFieldValue`): convert one value to its
canonical string by descriptor kind.  The catch-all row is Go's `default`
branch (`fmt.Sprint(value.Interface())`); kind/value combinations other than
the listed ones cannot occur for well-typed protoreflect data. -/
def parseProtoMessageFieldValue (kind : FieldKind) (v : FieldValue) : Except String String :=
  match kind, v with
  | .boolK, .vBool b => .ok (if b then "true" else "false")
  | .enumK enumFullName valueNames, .vEnum n =>
      if enumFullName = "google.protobuf.NullValue" then .ok "null"
      else .ok ((valueNames.find? (·.1 = n)).elim "" (·.2))
  | .stringK, .vString s => .ok s
  | .bytesK, .vBytes bs => .ok (String.mk (b64Encode b64UrlAlphabet bs))
  | .messageK, .vMsg m => encodeMessage m
  | _, v => .ok (sprintValue v)

/-- parser.go:125-144 (`encodeRepeatedField`): convert every element, aborting
with the first conversion error. -/
def encodeRepeatedField (kind : FieldKind) : List FieldValue → Except String (List String)
  | [] => .ok []
  | v :: rest =>
    match parseProtoMessageFieldValue kind v with
    | .error e => .error e
    | .ok s =>
      match encodeRepeatedField kind rest with
      | .error e => .error e
      | .ok ss => .ok (s :: ss)

/-- parser.go:146-166 (`encodeMapField`): both the key and the value of each
entry are converted with the `MapValue()` descriptor; a conversion error makes
the range callback return `false`, which stops the iteration — the failing
entry and every entry not yet visited are dropped and NO error is reported. -/
def encodeMapField (valueKind : FieldKind) :
    List (FieldValue × FieldValue) → List (String × String)
  | [] => []
  | (k, v) :: rest =>
    match parseProtoMessageFieldValue valueKind k with
    | .error _ => []
    | .ok key =>
      match parseProtoMessageFieldValue valueKind v with
      | .error _ => []
      | .ok value => (key, value) :: encodeMapField valueKind rest

/-- The external key of a field (parser.go:58-61): the JSON name when one is
declared, the text name otherwise. -/
def fieldKey (fd : FieldDesc) : String :=
  if fd.hasJsonName then fd.jsonName else fd.textName

/-- parser.go:63-66: `newPath`. -/
def joinPath (path key : String) : String :=
  if path = "" then key else path ++ "." ++ key

/-- Go call `m.WhichOneof(of)` (parser.go:68-72): the populated member of oneof `o`
(unique in well-formed data; the model takes the first in field order). -/
def whichOneof (fields : List (FieldDesc × Option FieldEntry)) (o : Nat) : Option FieldDesc :=
  (fields.find? (fun p => p.1.oneofId = some o ∧ p.2.isSome)).map (·.1)

/-- The oneof guard of the range callback: skip the field when it belongs to a
oneof whose selected member is a different field. -/
def oneofSkip (fields : List (FieldDesc × Option FieldEntry)) (fd : FieldDesc) : Bool :=
  match fd.oneofId with
  | none => false
  | some o =>
    match whichOneof fields o with
    | some f => f ≠ fd
    | none => false

/-- parser.go:54-123 (`encodeByField`): range over the set fields of `m` (in
field order), building up the `url.Values`.  Per field: skip unselected oneof
members; a non-empty repeated field `Add`s one entry per element, aborting the
whole range on a conversion error; a non-empty map field `Set`s one entry per
surviving map entry under `path[key]` and never errors; a singular message
field first tries the well-known `encodeMessage` encoding and, when THAT
FAILS, recurses into the message's own fields at the extended path (only an
error from this recursion aborts the range); any other singular field `Set`s
its converted value, aborting on a conversion error.  The pair returned is the
final `url.Values` together with `finalErr`. -/
def encodeByField (u : UrlValues) (path : String) : ProtoMessage → UrlValues × Option String
  | .mk _ fields => encodeLoop path fields u fields
where encodeLoop (path : String) (all : List (FieldDesc × Option FieldEntry)) :
    UrlValues → List (FieldDesc × Option FieldEntry) → UrlValues × Option String
  | u, [] => (u, none)
  | u, (_, none) :: rest => encodeLoop path all u rest
  | u, (fd, some entry) :: rest =>
    let newPath := joinPath path (fieldKey fd)
    if oneofSkip all fd then encodeLoop path all u rest
    else
      match entry with
      | .listOf vs =>
        if vs.isEmpty then encodeLoop path all u rest
        else
          match encodeRepeatedField fd.kind vs with
          | .error e => (u, some e)
          | .ok items =>
              encodeLoop path all (items.foldl (fun acc it => acc.add newPath it) u) rest
      | .mapOf entries =>
        if entries.isEmpty then encodeLoop path all u rest
        else
          let pairs := encodeMapField fd.mapValueKind entries
          encodeLoop path all
            (pairs.foldl (fun acc kv => acc.set (newPath ++ "[" ++ kv.1 ++ "]") kv.2) u) rest
      | .singular v =>
        match fd.kind, v with
        | .messageK, .vMsg m' =>
          (match encodeMessage m' with
           | .ok value => encodeLoop path all (u.set newPath value) rest
           | .error _ =>
             match encodeByField u newPath m' with
             | (u', none) => encodeLoop path all u' rest
             | (u', some e) => (u', some e))
        | k, v' =>
          match parseProtoMessageFieldValue k v' with
          | .ok value => encodeLoop path all (u.set newPath value) rest
          | .error e => (u, some e)

/-- parser.go:15-26 (`ParseProtoMessageValues`): run `encodeByField` from an
empty map and the empty path; a recorded error discards the map. -/
def ParseProtoMessageValues (m : ProtoMessage) : Except String UrlValues :=
  match encodeByField [] "" m with
  | (u, none) => .ok u
  | (_, some e) => .error e

/-! ### Characterisation of when the decoder fails -/

def exErr : Except String String → Bool
  | .error _ => true
  | .ok _ => false

/-- When decoding a message reports an error, stated as a structural predicate
rather than as the traversal: some set field of the message that is not a
skipped oneof member either is a repeated field with an element whose
conversion fails, or is a singular message field whose well-known encoding
fails AND whose recursive flattening itself fails.  Map fields never
contribute. -/
def msgHasDecodeError : ProtoMessage → Bool
  | .mk _ fields => errLoop fields fields
where errLoop (all : List (FieldDesc × Option FieldEntry)) :
    List (FieldDesc × Option FieldEntry) → Bool
  | [] => false
  | (_, none) :: rest => errLoop all rest
  | (fd, some entry) :: rest =>
    if oneofSkip all fd then errLoop all rest
    else
      (match entry with
       | .listOf vs => vs.any (fun v => exErr (parseProtoMessageFieldValue fd.kind v))
       | .mapOf _ => false
       | .singular v =>
         match fd.kind, v with
         | .messageK, .vMsg m' => exErr (encodeMessage m') && msgHasDecodeError m'
         | k, v' => exErr (parseProtoMessageFieldValue k v')) ||
      errLoop all rest

theorem encodeRepeatedField_error_iff (kind : FieldKind) (vs : List FieldValue) :
    (encodeRepeatedField kind vs).isOk = false ↔
      vs.any (fun v => exErr (parseProtoMessageFieldValue kind v)) = true := by
  induction vs with
  | nil => simp [encodeRepeatedField, Except.isOk, Except.toBool]
  | cons v rest ih =>
    simp only [encodeRepeatedField, List.any_cons, Bool.or_eq_true]
    cases hp : parseProtoMessageFieldValue kind v with
    | error e => simp [Except.isOk, Except.toBool, exErr, hp]
    | ok s =>
      cases hr : encodeRepeatedField kind rest with
      | error e => simp [Except.isOk, Except.toBool, exErr, hp, hr] at ih ⊢; exact ih
      | ok ss => simp [Except.isOk, Except.toBool, exErr, hp, hr] at ih ⊢; exact ih

/-- The traversal reports an error exactly when `msgHasDecodeError` holds; in
particular the outcome does not depend on the accumulated `url.Values` nor on
the current path.  Proved by the functional induction of `encodeByField`,
jointly with the corresponding statement about its loop. -/
theorem encodeByField_error_char :
    ∀ (u : UrlValues) (path : String) (m : ProtoMessage),
      (encodeByField u path m).2.isSome = msgHasDecodeError m := by
  refine encodeByField.induct
    (fun path all u rest =>
      (encodeByField.encodeLoop path all u rest).2.isSome = msgHasDecodeError.errLoop all rest)
    (fun u path m => (encodeByField u path m).2.isSome = msgHasDecodeError m)
    ?_ ?_ ?_ ?_ ?_ ?_ ?_ ?_ ?_ ?_ ?_ ?_ ?_ ?_
  · intro u path n fields h
    rw [encodeByField.eq_def, msgHasDecodeError.eq_def]
    exact h
  · intro path all u
    rw [encodeByField.encodeLoop.eq_def, msgHasDecodeError.errLoop.eq_def]
    rfl
  · intro path all u fd rest ih
    rw [encodeByField.encodeLoop.eq_def, msgHasDecodeError.errLoop.eq_def]
    exact ih
  · intro path all u fd entry rest hskip ih
    rw [encodeByField.encodeLoop.eq_def, msgHasDecodeError.errLoop.eq_def]
    simp only [hskip, if_true]
    exact ih
  · -- empty repeated field
    intro path all u fd rest hskip vs hempty ih
    have hvs : vs = [] := by simpa [List.isEmpty_iff] using hempty
    subst hvs
    rw [encodeByField.encodeLoop.eq_def, msgHasDecodeError.errLoop.eq_def]
    simpa [hskip] using ih
  · -- repeated field, conversion error
    intro path all u fd rest hskip vs hempty e herr
    have hany : vs.any (fun v => exErr (parseProtoMessageFieldValue fd.kind v)) = true := by
      rw [← encodeRepeatedField_error_iff]
      simp [herr, Except.isOk, Except.toBool]
    rw [encodeByField.encodeLoop.eq_def, msgHasDecodeError.errLoop.eq_def]
    simp [hskip, hempty, herr, hany]
  · -- repeated field, all conversions succeed
    intro path all u fd rest _ hskip vs hempty ss hok ih
    have hany : vs.any (fun v => exErr (parseProtoMessageFieldValue fd.kind v)) = false := by
      have h2 := (encodeRepeatedField_error_iff fd.kind vs).not
      simp only [hok, Except.isOk, Except.toBool] at h2
      simpa using h2
    rw [encodeByField.encodeLoop.eq_def, msgHasDecodeError.errLoop.eq_def]
    simp only [hskip, Bool.false_eq_true, if_false, hempty, hok, hany, Bool.false_or]
    exact ih
  · -- empty map field
    intro path all u fd rest hskip entries hempty ih
    rw [encodeByField.encodeLoop.eq_def, msgHasDecodeError.errLoop.eq_def]
    simp only [List.isEmpty_iff] at hempty
    subst hempty
    simpa [hskip] using ih
  · -- non-empty map field
    intro path all u fd rest _ hskip entries hempty _ ih
    rw [encodeByField.encodeLoop.eq_def, msgHasDecodeError.errLoop.eq_def]
    simp only [hskip, Bool.false_eq_true, if_false, hempty, Bool.false_or]
    exact ih
  · -- singular message, well-known encoding succeeds
    intro path all u fd rest _ hskip m' hkind value hok ih
    rw [encodeByField.encodeLoop.eq_def, msgHasDecodeError.errLoop.eq_def]
    simp only [hskip, Bool.false_eq_true, if_false, hkind, hok, exErr, Bool.false_and,
      Bool.false_or]
    exact ih
  · -- singular message, encoding fails, recursion succeeds
    intro path all u fd rest _ hskip m' hkind e herr u' hrec ihm ih
    rw [hrec] at ihm
    simp only [Option.isSome_none] at ihm
    rw [encodeByField.encodeLoop.eq_def, msgHasDecodeError.errLoop.eq_def]
    simp only [hskip, Bool.false_eq_true, if_false, hkind, herr, hrec, exErr, ← ihm,
      Bool.and_false, Bool.false_or]
    exact ih
  · -- singular message, encoding fails, recursion fails
    intro path all u fd rest _ hskip m' hkind e herr u' e' hrec ihm
    rw [hrec] at ihm
    simp only [Option.isSome_some] at ihm
    rw [encodeByField.encodeLoop.eq_def, msgHasDecodeError.errLoop.eq_def]
    simp [hskip, hkind, herr, hrec, exErr, ← ihm]
  · -- singular non-message value, conversion succeeds
    intro path all u fd rest _ hskip v' value hnotmsg hok ih
    obtain ⟨num, tn, jn, hj, kind, mvk, oid⟩ := fd
    rw [encodeByField.encodeLoop.eq_def, msgHasDecodeError.errLoop.eq_def]
    cases kind <;> cases v' <;>
      first
        | exact (hnotmsg _ rfl rfl).elim
        | (simp only [hskip, Bool.false_eq_true, if_false, hok, exErr, Bool.false_or]
           exact ih)
  · -- singular non-message value, conversion fails
    intro path all u fd rest hskip v' e hnotmsg herr
    obtain ⟨num, tn, jn, hj, kind, mvk, oid⟩ := fd
    rw [encodeByField.encodeLoop.eq_def, msgHasDecodeError.errLoop.eq_def]
    cases kind <;> cases v' <;>
      first
        | exact (hnotmsg _ rfl rfl).elim
        | simp [hskip, herr, exErr]

/-! ### Which keys the decoder can produce -/

/-- Key `k` addresses the field key `base` or data nested below it: `k` equals
`base`, or extends it with a `.`-separated sub-path or a `[`-bracketed map key
(trivially true for the degenerate empty base). -/
def keyExtends (k base : String) : Bool :=
  base = "" ||
    (k.data.take base.data.length = base.data &&
      match k.data.drop base.data.length with
      | [] => true
      | '.' :: _ => true
      | '[' :: _ => true
      | _ => false)

theorem keyExtends_of_data (k base : String) (t : List Char)
    (h : k.data = base.data ++ t)
    (ht : t = [] ∨ (∃ t2, t = '.' :: t2) ∨ (∃ t2, t = '[' :: t2)) :
    keyExtends k base = true := by
  simp only [keyExtends, h, Bool.or_eq_true, decide_eq_true_eq, Bool.and_eq_true]
  refine Or.inr ⟨by simp [List.take_left base.data t], ?_⟩
  rw [show (base.data ++ t).drop base.data.length = t from by
    simp [List.drop_left base.data t]]
  rcases ht with rfl | ⟨t2, rfl⟩ | ⟨t2, rfl⟩ <;> rfl

theorem keyExtends_self (b : String) : keyExtends b b = true :=
  keyExtends_of_data b b [] (by simp) (Or.inl rfl)

theorem keyExtends_append_dot (base s : String) :
    keyExtends (base ++ "." ++ s) base = true := by
  refine keyExtends_of_data _ _ ('.' :: s.data) ?_ (Or.inr (Or.inl ⟨s.data, rfl⟩))
  simp [String.data_append]

theorem keyExtends_append_bracket (base s : String) :
    keyExtends (base ++ "[" ++ s) base = true := by
  refine keyExtends_of_data _ _ ('[' :: s.data) ?_ (Or.inr (Or.inr ⟨s.data, rfl⟩))
  simp [String.data_append]

/-- Extending a joined path extends the base path. -/
theorem keyExtends_joinPath (k np c : String) (h : keyExtends k (joinPath np c) = true) :
    keyExtends k np = true := by
  by_cases hnp : np = ""
  · simp [keyExtends, hnp]
  · rw [joinPath, if_neg hnp] at h
    simp only [keyExtends, Bool.or_eq_true, decide_eq_true_eq, Bool.and_eq_true] at h
    rcases h with h | ⟨htake, hrest⟩
    · exfalso
      have h2 := congrArg String.data h
      simp [String.data_append] at h2
    · obtain ⟨r, hk⟩ : ∃ r, k.data = (np ++ "." ++ c).data ++ r :=
        ⟨k.data.drop ((np ++ "." ++ c).data).length, by
          conv_lhs => rw [← List.take_append_drop ((np ++ "." ++ c).data).length k.data]
          rw [htake]⟩
      refine keyExtends_of_data k np ('.' :: (c.data ++ r)) ?_ (Or.inr (Or.inl ⟨_, rfl⟩))
      rw [hk]
      simp [String.data_append]

theorem keys_map_preserve (u : UrlValues) (f : String × List String → String × List String)
    (hf : ∀ p, (f p).1 = p.1) : UrlValues.keys (u.map f) = u.keys := by
  induction u with
  | nil => rfl
  | cons p rest ih => simp only [List.map_cons, UrlValues.keys, List.map] at ih ⊢; rw [hf]; exact congrArg _ ih

theorem keys_set (u : UrlValues) (k v x : String) (h : x ∈ (u.set k v).keys) :
    x ∈ u.keys ∨ x = k := by
  unfold UrlValues.set at h
  split at h
  · rw [keys_map_preserve u _ (fun p => by by_cases hp : p.1 = k <;> simp [hp])] at h
    exact Or.inl h
  · simp only [UrlValues.keys, List.map_append, List.mem_append] at h
    rcases h with h | h
    · exact Or.inl h
    · simp at h
      exact Or.inr h

theorem keys_add (u : UrlValues) (k v x : String) (h : x ∈ (u.add k v).keys) :
    x ∈ u.keys ∨ x = k := by
  unfold UrlValues.add at h
  split at h
  · rw [keys_map_preserve u _ (fun p => by by_cases hp : p.1 = k <;> simp [hp])] at h
    exact Or.inl h
  · simp only [UrlValues.keys, List.map_append, List.mem_append] at h
    rcases h with h | h
    · exact Or.inl h
    · simp at h
      exact Or.inr h

theorem keys_foldl_add (items : List String) (np : String) :
    ∀ (u : UrlValues) (x : String),
      x ∈ (items.foldl (fun acc it => acc.add np it) u).keys → x ∈ u.keys ∨ x = np := by
  induction items with
  | nil => intro u x h; exact Or.inl h
  | cons it rest ih =>
    intro u x h
    rcases ih (u.add np it) x h with h2 | h2
    · exact keys_add u np it x h2
    · exact Or.inr h2

theorem keys_foldl_set_bracket (pairs : List (String × String)) (np : String) :
    ∀ (u : UrlValues) (x : String),
      x ∈ (pairs.foldl (fun acc kv => acc.set (np ++ "[" ++ kv.1 ++ "]") kv.2) u).keys →
        x ∈ u.keys ∨ ∃ a, x = np ++ "[" ++ a ++ "]" := by
  induction pairs with
  | nil => intro u x h; exact Or.inl h
  | cons kv rest ih =>
    intro u x h
    rcases ih _ x h with h2 | h2
    · rcases keys_set _ _ _ x h2 with h3 | h3
      · exact Or.inl h3
      · exact Or.inr ⟨kv.1, h3⟩
    · exact Or.inr h2

/-- Every key the traversal produces either was already present or lies at or
below the path of a SET field of the visited message: unset fields contribute
no entries. -/
theorem encodeByField_keys :
    ∀ (u : UrlValues) (path : String) (m : ProtoMessage) (x : String),
      x ∈ ((encodeByField u path m).1).keys →
        x ∈ u.keys ∨ ∃ fd e, (fd, some e) ∈ m.fields ∧
          keyExtends x (joinPath path (fieldKey fd)) = true := by
  refine encodeByField.induct
    (fun path all u rest => ∀ x, x ∈ ((encodeByField.encodeLoop path all u rest).1).keys →
      x ∈ u.keys ∨ ∃ fd e, (fd, some e) ∈ rest ∧
        keyExtends x (joinPath path (fieldKey fd)) = true)
    (fun u path m => ∀ x, x ∈ ((encodeByField u path m).1).keys →
      x ∈ u.keys ∨ ∃ fd e, (fd, some e) ∈ m.fields ∧
        keyExtends x (joinPath path (fieldKey fd)) = true)
    ?_ ?_ ?_ ?_ ?_ ?_ ?_ ?_ ?_ ?_ ?_ ?_ ?_ ?_
  · intro u path n fields h
    rw [encodeByField.eq_def]
    exact h
  · intro path all u x h
    exact Or.inl h
  · intro path all u fd rest ih x h
    rw [encodeByField.encodeLoop.eq_def] at h
    rcases ih x h with h2 | ⟨fd2, e2, hmem, hext⟩
    · exact Or.inl h2
    · exact Or.inr ⟨fd2, e2, List.mem_cons_of_mem _ hmem, hext⟩
  · intro path all u fd entry rest hskip ih x h
    rw [encodeByField.encodeLoop.eq_def] at h
    simp only [hskip, if_true] at h
    rcases ih x h with h2 | ⟨fd2, e2, hmem, hext⟩
    · exact Or.inl h2
    · exact Or.inr ⟨fd2, e2, List.mem_cons_of_mem _ hmem, hext⟩
  · intro path all u fd rest hskip vs hempty ih x h
    have hvs : vs = [] := by simpa [List.isEmpty_iff] using hempty
    subst hvs
    rw [encodeByField.encodeLoop.eq_def] at h
    simp only [hskip, Bool.false_eq_true, if_false, List.isEmpty_nil, if_true] at h
    rcases ih x h with h2 | ⟨fd2, e2, hmem, hext⟩
    · exact Or.inl h2
    · exact Or.inr ⟨fd2, e2, List.mem_cons_of_mem _ hmem, hext⟩
  · intro path all u fd rest hskip vs hempty e herr x h
    rw [encodeByField.encodeLoop.eq_def] at h
    simp only [hskip, Bool.false_eq_true, if_false, hempty, herr] at h
    exact Or.inl h
  · intro path all u fd rest _ hskip vs hempty ss hok ih x h
    rw [encodeByField.encodeLoop.eq_def] at h
    simp only [hskip, Bool.false_eq_true, if_false, hempty, hok] at h
    rcases ih x h with h2 | ⟨fd2, e2, hmem, hext⟩
    · rcases keys_foldl_add ss _ u x h2 with h3 | h3
      · exact Or.inl h3
      · subst h3
        exact Or.inr ⟨fd, .listOf vs, List.mem_cons_self _ _, keyExtends_self _⟩
    · exact Or.inr ⟨fd2, e2, List.mem_cons_of_mem _ hmem, hext⟩
  · intro path all u fd rest hskip entries hempty ih x h
    have he : entries = [] := by simpa [List.isEmpty_iff] using hempty
    subst he
    rw [encodeByField.encodeLoop.eq_def] at h
    simp only [hskip, Bool.false_eq_true, if_false, List.isEmpty_nil, if_true] at h
    rcases ih x h with h2 | ⟨fd2, e2, hmem, hext⟩
    · exact Or.inl h2
    · exact Or.inr ⟨fd2, e2, List.mem_cons_of_mem _ hmem, hext⟩
  · intro path all u fd rest _ hskip entries hempty _ ih x h
    rw [encodeByField.encodeLoop.eq_def] at h
    simp only [hskip, Bool.false_eq_true, if_false, hempty] at h
    rcases ih x h with h2 | ⟨fd2, e2, hmem, hext⟩
    · rcases keys_foldl_set_bracket _ _ u x h2 with h3 | ⟨a, h3⟩
      · exact Or.inl h3
      · subst h3
        refine Or.inr ⟨fd, .mapOf entries, List.mem_cons_self _ _, ?_⟩
        rw [show joinPath path (fieldKey fd) ++ "[" ++ a ++ "]" =
          joinPath path (fieldKey fd) ++ "[" ++ (a ++ "]") from by
            simp [String.ext_iff, String.data_append]]
        exact keyExtends_append_bracket _ _
    · exact Or.inr ⟨fd2, e2, List.mem_cons_of_mem _ hmem, hext⟩
  · intro path all u fd rest _ hskip m2 hkind value hok ih x h
    rw [encodeByField.encodeLoop.eq_def] at h
    simp only [hskip, Bool.false_eq_true, if_false, hkind, hok] at h
    rcases ih x h with h2 | ⟨fd2, e2, hmem, hext⟩
    · rcases keys_set u _ _ x h2 with h3 | h3
      · exact Or.inl h3
      · subst h3
        exact Or.inr ⟨fd, .singular (.vMsg m2), List.mem_cons_self _ _, keyExtends_self _⟩
    · exact Or.inr ⟨fd2, e2, List.mem_cons_of_mem _ hmem, hext⟩
  · intro path all u fd rest _ hskip m2 hkind e herr u2 hrec ihm ih x h
    rw [encodeByField.encodeLoop.eq_def] at h
    simp only [hskip, Bool.false_eq_true, if_false, hkind, herr, hrec] at h
    rcases ih x h with h2 | ⟨fd2, e2, hmem, hext⟩
    · have := ihm x (by rw [hrec]; exact h2)
      rcases this with h3 | ⟨fd3, e3, hmem3, hext3⟩
      · exact Or.inl h3
      · refine Or.inr ⟨fd, .singular (.vMsg m2), List.mem_cons_self _ _, ?_⟩
        exact keyExtends_joinPath _ _ _ hext3
    · exact Or.inr ⟨fd2, e2, List.mem_cons_of_mem _ hmem, hext⟩
  · intro path all u fd rest _ hskip m2 hkind e herr u2 e2 hrec ihm x h
    rw [encodeByField.encodeLoop.eq_def] at h
    simp only [hskip, Bool.false_eq_true, if_false, hkind, herr, hrec] at h
    have := ihm x (by rw [hrec]; exact h)
    rcases this with h3 | ⟨fd3, e3, hmem3, hext3⟩
    · exact Or.inl h3
    · refine Or.inr ⟨fd, .singular (.vMsg m2), List.mem_cons_self _ _, ?_⟩
      exact keyExtends_joinPath _ _ _ hext3
  · intro path all u fd rest _ hskip v2 value hnotmsg hok ih x h
    obtain ⟨num, tn, jn, hj, kind, mvk, oid⟩ := fd
    rw [encodeByField.encodeLoop.eq_def] at h
    revert h
    cases kind <;> cases v2 <;>
      first
        | exact fun h => (hnotmsg _ rfl rfl).elim
        | (intro h
           simp only [hskip, Bool.false_eq_true, if_false, hok] at h
           rcases ih x h with h2 | ⟨fd2, e2, hmem, hext⟩
           · rcases keys_set u _ _ x h2 with h3 | h3
             · exact Or.inl h3
             · subst h3
               exact Or.inr ⟨_, .singular _, List.mem_cons_self _ _, keyExtends_self _⟩
           · exact Or.inr ⟨fd2, e2, List.mem_cons_of_mem _ hmem, hext⟩)
  · intro path all u fd rest hskip v2 e hnotmsg herr x h
    obtain ⟨num, tn, jn, hj, kind, mvk, oid⟩ := fd
    rw [encodeByField.encodeLoop.eq_def] at h
    revert h
    cases kind <;> cases v2 <;>
      first
        | exact fun h => (hnotmsg _ rfl rfl).elim
        | (intro h
           simp only [hskip, Bool.false_eq_true, if_false, herr] at h
           exact Or.inl h)

theorem Has_iff_mem_keys (u : UrlValues) (k : String) :
    u.Has k = true ↔ k ∈ u.keys := by
  simp only [UrlValues.Has, UrlValues.keys, List.find?_isSome, List.mem_map,
    decide_eq_true_eq]

/-- Function `ParseProtoMessageValues` succeeds exactly when `msgHasDecodeError` is
false. -/
theorem ParseProtoMessageValues_isOk (m : ProtoMessage) :
    (ParseProtoMessageValues m).isOk = !(msgHasDecodeError m) := by
  have h := encodeByField_error_char [] "" m
  unfold ParseProtoMessageValues
  rcases hres : encodeByField [] "" m with ⟨u, e⟩
  rw [hres] at h
  cases e with
  | none => simp only [Option.isSome_none] at h; simp [Except.isOk, Except.toBool, ← h]
  | some err => simp only [Option.isSome_some] at h; simp [Except.isOk, Except.toBool, ← h]

/-- A successfully decoded map only holds keys at or below a set field's key:
an unset field whose key is unrelated to every set field's key is absent. -/
theorem unset_field_absent (m : ProtoMessage) (fd : FieldDesc) (u : UrlValues)
    (hok : ParseProtoMessageValues m = .ok u)
    (_hnone : (fd, none) ∈ m.fields)
    (hsep : ∀ fd2 e2, (fd2, some e2) ∈ m.fields → keyExtends (fieldKey fd) (fieldKey fd2) = false) :
    u.Has (fieldKey fd) = false := by
  by_contra hcon
  rw [Bool.not_eq_false, Has_iff_mem_keys] at hcon
  have hu : (encodeByField [] "" m).1 = u := by
    unfold ParseProtoMessageValues at hok
    rcases hres : encodeByField [] "" m with ⟨u2, e⟩
    rw [hres] at hok
    cases e with
    | none => simpa using hok
    | some err => simp at hok
  rw [← hu] at hcon
  rcases encodeByField_keys [] "" m (fieldKey fd) hcon with h | ⟨fd2, e2, hmem, hext⟩
  · simp [UrlValues.keys] at h
  · rw [show joinPath "" (fieldKey fd2) = fieldKey fd2 from rfl] at hext
    rw [hsep fd2 e2 hmem] at hext
    exact Bool.false_ne_true hext

/-! ### Claim theorems -/

/-- The decoded-options message used as counterexample input: one singular
message field `ts` holding a `google.protobuf.Timestamp` whose `seconds` value
253402300800 lies above the legal maximum 253402300799. -/
def tsOutOfRangeMsg : ProtoMessage :=
  .mk "test.Opt"
    [({ number := 1, textName := "ts", jsonName := "ts", hasJsonName := false,
        kind := .messageK },
      some (.singular (.vMsg (.mk "google.protobuf.Timestamp"
        [({ number := 1, textName := "seconds", jsonName := "seconds",
            hasJsonName := false, kind := .intK },
          some (.singular (.vInt 253402300800)))]))))]

/-- C1, counterexample.  The claim says decoding FAILS whenever an embedded
well-known numeric value is out of its legal range.  Here the embedded
timestamp is out of range — its well-known encoding really does fail, first
conjunct — yet `ParseProtoMessageValues` succeeds: the failing singular message
is silently flattened field-by-field (`ts.seconds`), so decoding an option
with an out-of-range singular timestamp returns no error. -/
theorem C1_counterexample :
    marshalTimestampValues 253402300800 0 =
      .error "google.protobuf.Timestamp: seconds out of range 253402300800" ∧
    ParseProtoMessageValues tsOutOfRangeMsg = .ok [("ts.seconds", ["253402300800"])] :=
  ⟨rfl, rfl⟩

/-- C1, amended: decoding returns an error exactly when `msgHasDecodeError`
holds — some set, non-oneof-skipped REPEATED field (of the message itself, or
of a singular nested message being recursively flattened because its
well-known encoding failed) has an element whose conversion fails; a failing
singular nested message is flattened instead of failing the decode, and map
fields never contribute errors.  Moreover every field with no set value is
absent from the result: a successfully decoded map holds keys only at or below
the keys of set fields. -/
theorem C1_theorem :
    (∀ m : ProtoMessage, (ParseProtoMessageValues m).isOk = !(msgHasDecodeError m)) ∧
    (∀ (m : ProtoMessage) (fd : FieldDesc) (u : UrlValues),
      ParseProtoMessageValues m = .ok u →
      (fd, none) ∈ m.fields →
      (∀ fd2 e2, (fd2, some e2) ∈ m.fields →
        keyExtends (fieldKey fd) (fieldKey fd2) = false) →
      u.Has (fieldKey fd) = false) :=
  ⟨ParseProtoMessageValues_isOk, fun m fd u hok hnone hsep =>
    unset_field_absent m fd u hok hnone hsep⟩

/-- The witness message for C1: a set string field `a` next to an unset field
`b`. -/
def c1WitnessMsg : ProtoMessage :=
  .mk "test.Opt"
    [({ number := 1, textName := "a", jsonName := "a", hasJsonName := false,
        kind := .stringK },
      some (.singular (.vString "x"))),
     ({ number := 2, textName := "b", jsonName := "b", hasJsonName := false,
        kind := .stringK }, none)]

/-- C1, witness: at the concrete message above, decoding succeeds (it has no
decode error) and the unset field `b` is absent from the decoded map. -/
theorem C1_witness :
    (ParseProtoMessageValues c1WitnessMsg).isOk = !(msgHasDecodeError c1WitnessMsg) ∧
    UrlValues.Has [("a", ["x"])] "b" = false := by
  constructor
  · exact C1_theorem.1 c1WitnessMsg
  · refine C1_theorem.2 c1WitnessMsg
      { number := 2, textName := "b", jsonName := "b", hasJsonName := false,
        kind := .stringK } [("a", ["x"])] rfl (by right; left) ?_
    intro fd2 e2 hmem
    simp only [c1WitnessMsg, ProtoMessage.fields, List.mem_cons, List.mem_singleton,
      List.not_mem_nil, or_false, Prod.mk.injEq] at hmem
    rcases hmem with ⟨hfd, he⟩ | ⟨hfd, he⟩
    · subst hfd
      decide
    · exact absurd he (by simp)

/-- C2, counterexample.  The claim says a check run never mutates the decoded
option message, in particular not the path list of a decoded
`google.protobuf.FieldMask` value.  But `encodeMessage`\'s FieldMask branch
writes the camel-cased conversion of every path back into `m.Paths` before
joining: after decoding `["foo_bar"]` the message\'s path list has become
`["fooBar"]` — the option message IS mutated. -/
theorem C2_counterexample :
    (encodeFieldMaskPaths ["foo_bar"]).2 ≠ ["foo_bar"] := by decide

/-- C2, amended: the core holds read-only references and its checks leave the
schema and option values unchanged WITH ONE EXCEPTION — decoding a
`google.protobuf.FieldMask` rewrites the message\'s path list in place, each
path replaced by its lower-camel-case conversion (so a path list containing no
underscores is left unchanged). -/
theorem C2_theorem :
    (∀ ps : List String,
      (encodeFieldMaskPaths ps).2 = ps.map convertSnakeCaseToCamelCase ∧
      (encodeFieldMaskPaths ps).1 = String.intercalate "," (encodeFieldMaskPaths ps).2) ∧
    (∀ ps : List String, (∀ p ∈ ps, ∀ c ∈ p.data, c ≠ '_') →
      (encodeFieldMaskPaths ps).2 = ps) := by
  constructor
  · intro ps
    exact ⟨rfl, rfl⟩
  · intro ps hps
    have hfix : ∀ p ∈ ps, convertSnakeCaseToCamelCase p = p := by
      intro p hp
      have : ∀ (cs : List Char), (∀ c ∈ cs, c ≠ '_') →
          convertSnakeLoop cs false = cs := by
        intro cs
        induction cs with
        | nil => intro _; rfl
        | cons c rest ih =>
          intro hcs
          rw [convertSnakeLoop]
          rw [if_neg (hcs c (List.mem_cons_self c rest))]
          simp only [Bool.false_and, if_neg Bool.false_ne_true]
          exact congrArg _ (ih (fun d hd => hcs d (List.mem_cons_of_mem c hd)))
      have h2 := this p.data (hps p hp)
      unfold convertSnakeCaseToCamelCase
      cases p
      exact congrArg String.mk h2
    calc (encodeFieldMaskPaths ps).2 = ps.map convertSnakeCaseToCamelCase := rfl
      _ = ps := List.map_congr_left hfix |>.trans (List.map_id ps)

/-- C2, witness: an underscore-free path list is left unchanged by decoding. -/
theorem C2_witness : (encodeFieldMaskPaths ["baz"]).2 = ["baz"] := by
  refine C2_theorem.2 ["baz"] ?_
  intro p hp c hc
  simp only [List.mem_singleton] at hp
  subst hp
  simp only [show "baz".data = ['b', 'a', 'z'] from rfl, List.mem_cons,
    List.not_mem_nil, or_false] at hc
  rcases hc with rfl | rfl | rfl <;> decide

/-! ### C9: map fields never fail the decode, repeated fields do -/

def okVal : Except String String → String
  | .ok s => s
  | .error _ => ""

/-- Function `encodeMapField` converts exactly the longest prefix of entries whose key
and value both convert successfully: from the first failing entry on,
everything is silently omitted. -/
theorem encodeMapField_takeWhile (k : FieldKind) (es : List (FieldValue × FieldValue)) :
    encodeMapField k es =
      (es.takeWhile (fun e => !exErr (parseProtoMessageFieldValue k e.1) &&
        !exErr (parseProtoMessageFieldValue k e.2))).map
        (fun e => (okVal (parseProtoMessageFieldValue k e.1),
                   okVal (parseProtoMessageFieldValue k e.2))) := by
  induction es with
  | nil => rfl
  | cons e rest ih =>
    rw [encodeMapField, List.takeWhile_cons]
    rcases e with ⟨ek, ev⟩
    cases hk : parseProtoMessageFieldValue k ek with
    | error s => simp [exErr, hk]
    | ok key =>
      cases hv : parseProtoMessageFieldValue k ev with
      | error s => simp [exErr, hk, hv]
      | ok value => simp [exErr, hk, hv, okVal, ih]

/-- A message all of whose set fields are maps never produces a decode
error. -/
theorem errLoop_all_maps (all : List (FieldDesc × Option FieldEntry)) :
    ∀ rest, (∀ fd e, (fd, some e) ∈ rest → ∃ es, e = .mapOf es) →
      msgHasDecodeError.errLoop all rest = false := by
  intro rest
  induction rest with
  | nil => intro _; rw [msgHasDecodeError.errLoop]
  | cons p rest ih =>
    intro h
    rcases p with ⟨fd, e⟩
    cases e with
    | none =>
      rw [msgHasDecodeError.errLoop.eq_def]
      exact ih (fun fd2 e2 hm => h fd2 e2 (List.mem_cons_of_mem _ hm))
    | some entry =>
      obtain ⟨es, rfl⟩ := h fd entry (List.mem_cons_self _ _)
      have hr := ih (fun fd2 e2 hm => h fd2 e2 (List.mem_cons_of_mem _ hm))
      rw [msgHasDecodeError.errLoop.eq_def]
      by_cases hs : oneofSkip all fd <;> simp [hs, hr]

/-- A set, non-skipped repeated field with a failing element makes the whole
decode fail. -/
theorem errLoop_of_bad_list (all : List (FieldDesc × Option FieldEntry)) :
    ∀ rest (fd : FieldDesc) (vs : List FieldValue),
      (fd, some (.listOf vs)) ∈ rest →
      oneofSkip all fd = false →
      vs.any (fun v => exErr (parseProtoMessageFieldValue fd.kind v)) = true →
      msgHasDecodeError.errLoop all rest = true := by
  intro rest
  induction rest with
  | nil => intro fd vs hmem; exact absurd hmem (List.not_mem_nil _)
  | cons p rest ih =>
    intro fd vs hmem hskip hbad
    rcases List.mem_cons.mp hmem with heq | hm
    · subst heq
      rw [msgHasDecodeError.errLoop.eq_def]
      simp [hskip, hbad]
    · rcases p with ⟨fd2, e2⟩
      have hr := ih fd vs hm hskip hbad
      rw [msgHasDecodeError.errLoop.eq_def]
      cases e2 with
      | none => simpa using hr
      | some entry => by_cases hs : oneofSkip all fd2 <;> simp [hs, hr]

/-- C9: decoding a map field never makes `ParseProtoMessageValues` fail — a
message whose set fields are all maps always decodes, and the map conversion
silently drops every entry from the first failing one on — while a set,
non-skipped repeated field containing an element whose conversion fails makes
the whole decode return an error. -/
theorem C9_theorem :
    (∀ m : ProtoMessage,
      (∀ fd e, (fd, some e) ∈ m.fields → ∃ es, e = FieldEntry.mapOf es) →
      (ParseProtoMessageValues m).isOk = true) ∧
    (∀ (k : FieldKind) (es : List (FieldValue × FieldValue)),
      encodeMapField k es =
        (es.takeWhile (fun e => !exErr (parseProtoMessageFieldValue k e.1) &&
          !exErr (parseProtoMessageFieldValue k e.2))).map
          (fun e => (okVal (parseProtoMessageFieldValue k e.1),
                     okVal (parseProtoMessageFieldValue k e.2)))) ∧
    (∀ (m : ProtoMessage) (fd : FieldDesc) (vs : List FieldValue),
      (fd, some (.listOf vs)) ∈ m.fields →
      oneofSkip m.fields fd = false →
      vs.any (fun v => exErr (parseProtoMessageFieldValue fd.kind v)) = true →
      (ParseProtoMessageValues m).isOk = false) := by
  refine ⟨?_, encodeMapField_takeWhile, ?_⟩
  · intro m h
    rw [ParseProtoMessageValues_isOk]
    rcases m with ⟨n, fields⟩
    rw [msgHasDecodeError]
    rw [errLoop_all_maps fields fields h]
    rfl
  · intro m fd vs hmem hskip hbad
    rw [ParseProtoMessageValues_isOk]
    rcases m with ⟨n, fields⟩
    rw [msgHasDecodeError]
    rw [errLoop_of_bad_list fields fields fd vs hmem hskip hbad]
    rfl

/-- A map field whose single entry has an unconvertible (unsupported-type)
value. -/
def c9MapMsg : ProtoMessage :=
  .mk "test.Opt"
    [({ number := 1, textName := "mp", jsonName := "mp", hasJsonName := false,
        kind := .messageK, mapValueKind := .messageK },
      some (.mapOf [(.vString "k", .vMsg (.mk "some.Unknown" []))]))]

/-- The same unconvertible element inside a repeated field. -/
def c9ListMsg : ProtoMessage :=
  .mk "test.Opt"
    [({ number := 1, textName := "xs", jsonName := "xs", hasJsonName := false,
        kind := .messageK },
      some (.listOf [.vMsg (.mk "some.Unknown" [])]))]

/-- C9, witness: the concrete map message decodes successfully (to the empty
map — the bad entry is dropped), the concrete repeated message fails. -/
theorem C9_witness :
    (ParseProtoMessageValues c9MapMsg).isOk = true ∧
    (ParseProtoMessageValues c9ListMsg).isOk = false := by
  constructor
  · refine C9_theorem.1 c9MapMsg ?_
    intro fd e hmem
    simp only [c9MapMsg, ProtoMessage.fields, List.mem_singleton, Prod.mk.injEq] at hmem
    exact ⟨_, Option.some_inj.mp hmem.2⟩
  · refine C9_theorem.2.2 c9ListMsg
      { number := 1, textName := "xs", jsonName := "xs", hasJsonName := false,
        kind := .messageK } [.vMsg (.mk "some.Unknown" [])] (by left) rfl (by decide)

/-! ### C4: the timestamp legal range -/

/-- C4: marshalling a well-known timestamp succeeds exactly when the seconds
lie in `[-6213559680013, 253402300799]` and the nanoseconds in
`[0, 999999999]`; the boundary `253402300799`/`0` renders as the maximal RFC
3339 instant, and `253402300800` yields a range error naming the seconds field
and the offending value.  (`marshalTimestamp` itself reads fields 1 and 2 of
the message and delegates.) -/
theorem C4_theorem :
    (∀ secs nanos : Int,
      (marshalTimestampValues secs nanos).isOk = true ↔
        (minTimestampSeconds ≤ secs ∧ secs ≤ maxTimestampSeconds ∧
         0 ≤ nanos ∧ nanos ≤ secondsInNanos)) ∧
    marshalTimestampValues 253402300799 0 = .ok "9999-12-31T23:59:59Z" ∧
    marshalTimestampValues 253402300800 0 =
      .error "google.protobuf.Timestamp: seconds out of range 253402300800" ∧
    (∀ m : ProtoMessage,
      marshalTimestamp m = marshalTimestampValues (getIntField m 1) (getIntField m 2)) := by
  refine ⟨?_, rfl, rfl, fun m => rfl⟩
  intro secs nanos
  unfold marshalTimestampValues
  split
  · rename_i h
    simp only [Except.isOk, Except.toBool, Bool.false_eq_true, false_iff]
    unfold minTimestampSeconds maxTimestampSeconds at *
    omega
  · rename_i h1
    split
    · rename_i h2
      simp only [Except.isOk, Except.toBool, Bool.false_eq_true, false_iff]
      unfold minTimestampSeconds maxTimestampSeconds secondsInNanos at *
      omega
    · rename_i h2
      simp only [Except.isOk, Except.toBool, true_iff]
      unfold minTimestampSeconds maxTimestampSeconds secondsInNanos at *
      omega

/-! ### C5: duration overflow clamps by the sign of the seconds -/

theorem wrap64_eq_self (x : Int) (h1 : minInt64 ≤ x) (h2 : x ≤ maxInt64) :
    wrap64 x = x := by
  unfold wrap64 minInt64 maxInt64 at *
  omega

theorem wrap64_sub_of_big (x : Int) (h1 : (9223372036854775808 : Int) ≤ x)
    (h2 : x < 9223372036854775808 + 18446744073709551616) :
    wrap64 x = x - 18446744073709551616 := by
  unfold wrap64 at *
  omega

theorem wrap64_add_of_small (x : Int)
    (h1 : -9223372036854775808 - 18446744073709551616 ≤ x)
    (h2 : x < -9223372036854775808) :
    wrap64 x = x + 18446744073709551616 := by
  unfold wrap64 at *
  omega

theorem wrap64_mem (x : Int) : minInt64 ≤ wrap64 x ∧ wrap64 x ≤ maxInt64 := by
  unfold wrap64 minInt64 maxInt64
  omega

/-- When `|secs| · 10⁹` already overflows, dividing the wrapped product back
by 10⁹ cannot recover `secs`, so the Go overflow flag is set. -/
theorem tdiv_wrap_ne (secs : Int) (hbig : 9223372037 ≤ secs.natAbs) :
    Int.tdiv (wrap64 (secs * 1000000000)) 1000000000 ≠ secs := by
  intro heq
  have hw := wrap64_mem (secs * 1000000000)
  have hna := Int.natAbs_tdiv (wrap64 (secs * 1000000000)) 1000000000
  rw [heq] at hna
  have hb : (wrap64 (secs * 1000000000)).natAbs ≤ 9223372036854775808 := by
    unfold minInt64 maxInt64 at hw
    omega
  have h9 : ((1000000000 : Int)).natAbs = 1000000000 := rfl
  rw [h9] at hna
  have hna2 : secs.natAbs = (wrap64 (secs * 1000000000)).natAbs / 1000000000 := hna
  omega

/-- C5: whenever the mathematical value `secs·10⁹ + nanos` (with `secs` an
int64, `nanos` an int32, the types stored in a `google.protobuf.Duration`)
overflows the signed 64-bit nanosecond range, the decoder renders the clamped
extreme duration whose sign follows the seconds component; in particular the
largest seconds value a `time.Duration` can represent plus a positive
nanosecond remainder renders as the maximal duration string, not as a
wrapped-around negative one. -/
theorem C5_theorem :
    (∀ secs nanos : Int,
      minInt64 ≤ secs → secs ≤ maxInt64 →
      -2147483648 ≤ nanos → nanos < 2147483648 →
      (maxInt64 < secs * 1000000000 + nanos →
        0 < secs ∧ marshalDurationValues secs nanos = durationString maxInt64) ∧
      (secs * 1000000000 + nanos < minInt64 →
        secs < 0 ∧ marshalDurationValues secs nanos = durationString minInt64)) ∧
    marshalDurationValues 9223372036 999999999 = "2562047h47m16.854775807s" ∧
    durationString maxInt64 = "2562047h47m16.854775807s" := by
  refine ⟨?_, rfl, rfl⟩
  intro secs nanos hs1 hs2 hn1 hn2
  constructor
  · intro hover
    have hpos : 0 < secs := by
      unfold minInt64 maxInt64 at *
      nlinarith
    refine ⟨hpos, ?_⟩
    unfold marshalDurationValues
    by_cases hfits : secs * 1000000000 ≤ maxInt64
    · have hprodnn : (0 : Int) ≤ secs * 1000000000 := by positivity
      have hd0 : wrap64 (secs * 1000000000) = secs * 1000000000 :=
        wrap64_eq_self _ (by unfold minInt64 at *; omega) hfits
      have hnpos : 0 < nanos := by unfold maxInt64 at *; omega
      have hd1 : wrap64 (secs * 1000000000 + nanos) =
          secs * 1000000000 + nanos - 18446744073709551616 := by
        apply wrap64_sub_of_big <;> unfold maxInt64 at * <;> omega
      have hneg : wrap64 (secs * 1000000000 + nanos) < 0 := by
        rw [hd1]; unfold maxInt64 at *; omega
      rw [hd0]
      rw [if_neg (by rintro ⟨-, hlt⟩; omega)]
      rw [if_pos ⟨Or.inr (Or.inr ⟨hpos, hnpos, hneg⟩), hpos⟩]
    · push_neg at hfits
      have hbig : 9223372037 ≤ secs.natAbs := by
        unfold maxInt64 at hfits
        have h37 : (9223372037 : Int) ≤ secs := by nlinarith
        omega
      have hne := tdiv_wrap_ne secs hbig
      rw [if_neg (by rintro ⟨-, hlt⟩; omega)]
      rw [if_pos ⟨Or.inl hne, hpos⟩]
  · intro hover
    have hneg : secs < 0 := by
      unfold minInt64 maxInt64 at *
      nlinarith
    refine ⟨hneg, ?_⟩
    unfold marshalDurationValues
    by_cases hfits : minInt64 ≤ secs * 1000000000
    · have hd0 : wrap64 (secs * 1000000000) = secs * 1000000000 :=
        wrap64_eq_self _ hfits (by nlinarith)
      have hnneg : nanos < 0 := by unfold minInt64 at *; omega
      have hd1 : wrap64 (secs * 1000000000 + nanos) =
          secs * 1000000000 + nanos + 18446744073709551616 := by
        apply wrap64_add_of_small <;> unfold minInt64 at * <;> omega
      have hpos1 : 0 < wrap64 (secs * 1000000000 + nanos) := by
        rw [hd1]; unfold minInt64 at *; omega
      rw [hd0]
      rw [if_pos ⟨Or.inr (Or.inl ⟨hneg, hnneg, hpos1⟩), hneg⟩]
    · push_neg at hfits
      have hbig : 9223372037 ≤ secs.natAbs := by
        unfold minInt64 at hfits
        have h37 : secs ≤ -9223372037 := by nlinarith
        omega
      have hne := tdiv_wrap_ne secs hbig
      rw [if_pos ⟨Or.inl hne, hneg⟩]

/-- C5, witness: at the concrete overflowing input `secs = 9223372036`,
`nanos = 999999999` the general clamping theorem applies and produces the
maximal duration rendering. -/
theorem C5_witness :
    0 < (9223372036 : Int) ∧
    marshalDurationValues 9223372036 999999999 = durationString maxInt64 :=
  (C5_theorem.1 9223372036 999999999 (by decide) (by decide) (by decide)
    (by decide)).1 (by decide)

/-! ### C6: snake-case to camel-case conversion of field-path lists -/

/-- A direct-recursion statement of the spec sentence: underscores are
dropped, and exactly the letters standing immediately after (a run of)
underscores are upper-cased.  `camelAfter` handles positions directly after an
underscore. -/
def camelPlain : List Char → List Char
  | [] => []
  | '_' :: rest => camelAfter rest
  | c :: rest => c :: camelPlain rest
where camelAfter : List Char → List Char
  | [] => []
  | '_' :: rest => camelAfter rest
  | c :: rest =>
      (if 'a' ≤ c ∧ c ≤ 'z' then Char.ofNat (c.toNat - 32) else c) :: camelPlain rest

theorem convertSnakeLoop_eq_camel (cs : List Char) :
    convertSnakeLoop cs false = camelPlain cs ∧
    convertSnakeLoop cs true = camelPlain.camelAfter cs := by
  induction cs with
  | nil => exact ⟨rfl, rfl⟩
  | cons c rest ih =>
    constructor
    · rw [convertSnakeLoop, camelPlain.eq_def]
      by_cases hc : c = '_'
      · subst hc
        simpa using ih.2
      · simp only [hc, if_false, Bool.false_and, Bool.false_eq_true]
        exact congrArg _ ih.1
    · rw [convertSnakeLoop, camelPlain.camelAfter.eq_def]
      by_cases hc : c = '_'
      · subst hc
        simpa using ih.2
      · simp only [hc, if_false, Bool.true_and, decide_eq_true_eq]
        exact congrArg _ ih.1

/-- C6: decoding a field-path list camel-cases every path — only lower-case
ASCII letters immediately following an underscore are upper-cased and the
underscores themselves are dropped (statement `camelPlain`) — and joins the
conversions with commas; on `["foo_bar", "baz"]` the decoded string is exactly
`"fooBar,baz"`. -/
theorem C6_theorem :
    (∀ ps : List String,
      (encodeFieldMaskPaths ps).1 =
        String.intercalate "," (ps.map convertSnakeCaseToCamelCase)) ∧
    (∀ s : String, convertSnakeCaseToCamelCase s = ⟨camelPlain s.data⟩) ∧
    (encodeFieldMaskPaths ["foo_bar", "baz"]).1 = "fooBar,baz" ∧
    encodeMessage (.mk "google.protobuf.FieldMask"
      [({ number := 1, textName := "paths", jsonName := "paths",
          hasJsonName := false, kind := .stringK },
        some (.listOf [.vString "foo_bar", .vString "baz"]))]) = .ok "fooBar,baz" := by
  refine ⟨fun ps => rfl, ?_, rfl, rfl⟩
  intro s
  unfold convertSnakeCaseToCamelCase
  exact congrArg String.mk (convertSnakeLoop_eq_camel s.data).1

/-! ### Checker embedding: configuration and results

From `internal/config/config.go` and `internal/checker/model.go`,
`internal/checker/checker.go`.  The check-name constants carry the exact rule
ids.  `Config.IsCheckExcluded` is membership of the excluded-checks set (the
Go code builds a hash set from `ExcludedChecks`). -/

def MethodHasVersion : String := "method_has_version"
def MethodHasCorrectInputName : String := "method_has_correct_input_name"
def MethodHasHTTPPath : String := "method_has_http_path"
def MethodHasBodyTag : String := "method_has_body_tag"
def MethodHasSwaggerTags : String := "method_has_swagger_tags"
def MethodHasSwaggerSummary : String := "method_has_swagger_summary"
def MethodHasSwaggerDescription : String := "method_has_swagger_description"
def MethodHasDefaultErrorResponse : String := "method_has_default_error_response"
def FieldNameIsSnakeCase : String := "field_name_is_snake_case"
def FieldHasCorrectJSONName : String := "field_has_correct_json_name"
def FieldHasNoDescription : String := "field_has_no_description"
def FieldDescriptionStartsWithCapital : String := "field_description_starts_with_capital"
def FieldDescriptionEndsWithDotOrQuestionMark : String :=
  "field_description_ends_with_dot_or_question_mark"
def EnumValueHasComments : String := "enum_value_has_comments"

def snakeCaseNamePattern : String := "^[a-z][a-z0-9_]*$"
def validMethodNamePattern : String := "^[A-Z][A-Za-z0-9]*V\\d+$"

structure Config where
  VerboseMode : Bool := false
  ExcludedChecks : List String := []
  ExcludedDescriptors : List String := []
  printAllDescriptors : Bool := false
  deriving DecidableEq, Repr

def Config.GetVerboseMode (cfg : Config) : Bool := cfg.VerboseMode
def Config.GetExcludedChecks (cfg : Config) : List String := cfg.ExcludedChecks
def Config.GetExcludedDescriptors (cfg : Config) : List String := cfg.ExcludedDescriptors
def Config.GetPrintAllDescriptors (cfg : Config) : Bool := cfg.printAllDescriptors

/-- config.go:137-145: membership of the excluded-checks set. -/
def Config.IsCheckExcluded (cfg : Config) (name : String) : Bool :=
  cfg.ExcludedChecks.contains name

/-- The data of one entry of the compiler\'s source-location side table
(`SourceLocations().ByDescriptor`): whether the element has a recorded
location (`Path != nil`), its zero-based start coordinates, and the leading
comment text. -/
structure SourceLocation where
  hasPath : Bool := false
  StartLine : Nat := 0
  StartColumn : Nat := 0
  LeadingComments : String := ""
  deriving DecidableEq, Repr

/-- checker/model.go: per-file result: informational messages, error
messages, and the descriptor full-name accumulator used for suppression-list
generation.  `FilePath` stands for `File.Path()`. -/
structure OperationResult where
  FilePath : String := ""
  Messages : List String := []
  Errors : List String := []
  descriptors : List String := []
  deriving DecidableEq, Repr

/-- checker/model.go `appendErrorLocation`: prefix `path:line:col: ` when the
element has source coordinates (`StartLine+1`, `StartColumn+1`, both then
positive). -/
def appendErrorLocation (filePath : String) (sl : SourceLocation) (message : String) : String :=
  let line := if sl.hasPath then sl.StartLine + 1 else 0
  let column := if sl.hasPath then sl.StartColumn + 1 else 0
  if 0 < line ∧ 0 < column then
    filePath ++ ":" ++ toString line ++ ":" ++ toString column ++ ": " ++ message
  else message

def OperationResult.AddMessage (r : OperationResult) (v : String) : OperationResult :=
  { r with Messages := r.Messages ++ [v] }

def OperationResult.AddError (r : OperationResult) (sl : SourceLocation) (v : String) :
    OperationResult :=
  { r with Errors := r.Errors ++ [appendErrorLocation r.FilePath sl v] }

/-- Go statement `result.descriptors = append(result.descriptors, name)`. -/
def OperationResult.addDescriptor (r : OperationResult) (n : String) : OperationResult :=
  { r with descriptors := r.descriptors ++ [n] }

/-! ### Checker embedding: schema element descriptors -/

structure MethodDesc where
  name : String
  fullName : String
  inputName : String
  inputFullName : String
  loc : SourceLocation := {}
  options : List (String × ProtoMessage) := []

structure FieldInfo where
  name : String
  fullName : String
  jsonName : String
  hasJsonName : Bool := false
  loc : SourceLocation := {}
  options : List (String × ProtoMessage) := []

structure EnumValueDesc where
  name : String
  fullName : String
  loc : SourceLocation := {}
  deriving DecidableEq, Repr

structure EnumDesc where
  name : String
  fullName : String
  loc : SourceLocation := {}
  values : List EnumValueDesc := []
  deriving DecidableEq, Repr

inductive MessageDesc where
  | mk (name fullName : String) (loc : SourceLocation) (fields : List FieldInfo)
      (nested : List MessageDesc) (enums : List EnumDesc)

def MessageDesc.name : MessageDesc → String
  | .mk n _ _ _ _ _ => n

def MessageDesc.fullName : MessageDesc → String
  | .mk _ fn _ _ _ _ => fn

def MessageDesc.loc : MessageDesc → SourceLocation
  | .mk _ _ l _ _ _ => l

def MessageDesc.msgFields : MessageDesc → List FieldInfo
  | .mk _ _ _ fs _ _ => fs

def MessageDesc.nested : MessageDesc → List MessageDesc
  | .mk _ _ _ _ ns _ => ns

def MessageDesc.enums : MessageDesc → List EnumDesc
  | .mk _ _ _ _ _ es => es

/-! ### Checker embedding: name matching and helpers -/

def isUpperAZ (c : Char) : Bool := 'A' ≤ c ∧ c ≤ 'Z'
def isLowerAZ (c : Char) : Bool := 'a' ≤ c ∧ c ≤ 'z'
def isDigit09 (c : Char) : Bool := '0' ≤ c ∧ c ≤ '9'
def isAlnumAZ (c : Char) : Bool := isUpperAZ c || isLowerAZ c || isDigit09 c

/-- The anchored regular expression `^[A-Z][A-Za-z0-9]*V\\d+$`
(checker.go:53): an upper-case letter, then a decomposition into
alphanumerics, a literal `V` and a non-empty digit suffix.  The matcher tries
every position for the `V`. -/
def matchesValidMethodName (s : String) : Bool :=
  match s.data with
  | [] => false
  | c :: rest =>
    isUpperAZ c &&
      (List.range rest.length).any (fun i =>
        rest.getD i ' ' = 'V' && (rest.take i).all isAlnumAZ &&
        !(rest.drop (i + 1)).isEmpty && (rest.drop (i + 1)).all isDigit09)

/-- The anchored regular expression `^[a-z][a-z0-9_]*$` (checker.go:52). -/
def matchesSnakeCaseName (s : String) : Bool :=
  match s.data with
  | [] => false
  | c :: rest =>
    isLowerAZ c && rest.all (fun d => isLowerAZ d || isDigit09 d || d = '_')

/-- checker.go:573-592 (`getNameForLogs`): strip the package prefix, and the
service prefix only when the file has exactly one service. -/
def getNameForLogs (packageName serviceName : String) (servicesCount : Nat)
    (fullName : String) : String :=
  let n1 := if packageName ≠ "" then goTrimPre fullName (packageName ++ ".") else fullName
  if servicesCount = 1 ∧ serviceName ≠ "" then goTrimPre n1 (serviceName ++ ".") else n1

/-- checker.go:594-602 (`shouldDescriptorBeSkipped`): the full name starts
with one of the excluded descriptor prefixes. -/
def shouldDescriptorBeSkipped (cfg : Config) (name : String) : Bool :=
  cfg.GetExcludedDescriptors.any (fun exception => goHasPre name exception)

/-- checker.go:604-617 (`fillGoogleAPIHTTPPath`): the first HTTP-verb key
found carries the path (`""` when its value list is empty). -/
def fillGoogleAPIHTTPPath (params : UrlValues) : String :=
  match params.find? (fun p =>
      p.1 = "get" ∨ p.1 = "put" ∨ p.1 = "post" ∨ p.1 = "delete" ∨ p.1 = "patch") with
  | some (_, v :: _) => v
  | _ => ""

/-- checker.go:619-621. -/
def isMethodWithRequiredBody (values : UrlValues) : Bool :=
  values.Has "post" || values.Has "put"

/-- Go `strings.TrimSpace`, at the character level. -/
def goTrimSpace (s : String) : String :=
  ⟨((s.data.dropWhile Char.isWhitespace).reverse.dropWhile Char.isWhitespace).reverse⟩

/-- checker/util.go `startsWithCapitalLetter` (on the leading byte; ASCII
upper-case in this model). -/
def startsWithCapitalLetter (s : String) : Bool :=
  match s.data with
  | [] => false
  | c :: _ => isUpperAZ c

/-! ### Checker embedding: the rule engine -/

/-- checker.go:225-333 (`checkMethodOptions`): range over the method\'s option
extensions; the `google.api.http` option drives the HTTP-path and body-tag
rules, the openapiv2 operation option drives the swagger and default-response
rules.  A decoder failure becomes an informational message and the option\'s
checks are skipped. -/
def checkMethodOptionsCallback (cfg : Config) (method : MethodDesc)
    (methodFullName methodLogName : String) (r : OperationResult)
    (opt : String × ProtoMessage) : OperationResult :=
    let optionFullName := opt.1
    if optionFullName = "google.api.http" then
      match ParseProtoMessageValues opt.2 with
      | .error e =>
        r.AddMessage ("Failed to parse option " ++ optionFullName ++ " of method " ++
          methodLogName ++ ": " ++ e)
      | .ok parsedOptions =>
        let path := fillGoogleAPIHTTPPath parsedOptions
        let r :=
          if ¬cfg.IsCheckExcluded MethodHasHTTPPath ∧ path = "" then
            let r := r.AddError method.loc
              ("Path of method " ++ methodLogName ++ " is not specified")
            if ¬cfg.GetPrintAllDescriptors then r.addDescriptor methodFullName else r
          else r
        if ¬cfg.IsCheckExcluded MethodHasBodyTag ∧
            isMethodWithRequiredBody parsedOptions ∧ parsedOptions.Get "body" ≠ "*" then
          let r := r.AddError method.loc
            ("Method " ++ methodLogName ++ " doesn\'t have body tag or body is not equal to *")
          if ¬cfg.GetPrintAllDescriptors then r.addDescriptor methodFullName else r
        else r
    else if optionFullName = "grpc.gateway.protoc_gen_openapiv2.options.openapiv2_operation" then
      match ParseProtoMessageValues opt.2 with
      | .error e =>
        r.AddMessage ("Failed to parse option " ++ optionFullName ++ " of method " ++
          methodLogName ++ ": " ++ e)
      | .ok parsedOptions =>
        let r :=
          if ¬cfg.IsCheckExcluded MethodHasSwaggerTags ∧ parsedOptions.Get "tags" = "" then
            let r := r.AddError method.loc ("Method " ++ methodLogName ++ " has no swagger tags")
            if ¬cfg.GetPrintAllDescriptors then r.addDescriptor methodFullName else r
          else r
        let r :=
          if ¬cfg.IsCheckExcluded MethodHasSwaggerSummary ∧ parsedOptions.Get "summary" = "" then
            let r := r.AddError method.loc ("Method " ++ methodLogName ++ " has no swagger summary")
            if ¬cfg.GetPrintAllDescriptors then r.addDescriptor methodFullName else r
          else r
        let r :=
          if ¬cfg.IsCheckExcluded MethodHasSwaggerDescription ∧
              parsedOptions.Get "description" = "" then
            let r := r.AddError method.loc
              ("Method " ++ methodLogName ++ " has no swagger description")
            if ¬cfg.GetPrintAllDescriptors then r.addDescriptor methodFullName else r
          else r
        if ¬cfg.IsCheckExcluded MethodHasDefaultErrorResponse ∧
            parsedOptions.Get "responses[default]" = "" then
          r.AddError method.loc
            ("Method " ++ methodLogName ++ " doesn\'t have a default error response")
        else r
    else r

/-- checker.go:225-333 (`checkMethodOptions`): range over the method\'s option
extensions with the callback above. -/
def checkMethodOptions (cfg : Config) (method : MethodDesc)
    (methodFullName methodLogName : String) (r : OperationResult) : OperationResult :=
  method.options.foldl (checkMethodOptionsCallback cfg method methodFullName methodLogName) r

/-- checker.go:158-223 (`checkMethods`): per method, record the full name in
print-all mode, honour exclusion, run the name-version rule, run the
input-name rule only when the name matched and the input is not
`google.protobuf.Empty`, then process the options. -/
def checkMethods (cfg : Config) (methods : List MethodDesc) (r : OperationResult)
    (serviceName : String) (servicesCount : Nat) (parsedFileFullName : String) :
    OperationResult :=
  methods.foldl (fun r method =>
    let methodLogName := getNameForLogs parsedFileFullName serviceName servicesCount
      method.fullName
    let r := if cfg.GetPrintAllDescriptors then r.addDescriptor method.fullName else r
    if shouldDescriptorBeSkipped cfg method.fullName then
      if cfg.GetVerboseMode then
        r.AddMessage ("Method " ++ methodLogName ++ " is skipped")
      else r
    else
      let isMethodNameCorrect := matchesValidMethodName method.name
      let r :=
        if ¬cfg.IsCheckExcluded MethodHasVersion ∧ ¬isMethodNameCorrect then
          let r := r.AddError method.loc ("Name of method " ++ methodLogName ++
            " doesn\'t match regular expression: " ++ validMethodNamePattern)
          if ¬cfg.GetPrintAllDescriptors then r.addDescriptor method.fullName else r
        else r
      let r :=
        if ¬cfg.IsCheckExcluded MethodHasCorrectInputName ∧ isMethodNameCorrect ∧
            method.inputFullName ≠ "google.protobuf.Empty" ∧
            method.inputName ≠ method.name ++ "Request" then
          let r := r.AddError method.loc ("Input of method " ++ methodLogName ++
            " should be named as " ++ method.name ++ "Request")
          if ¬cfg.GetPrintAllDescriptors then r.addDescriptor method.fullName else r
        else r
      checkMethodOptions cfg method method.fullName methodLogName r) r

/-- checker.go:430-496 (`checkFieldOptions`): only the openapiv2 field option
is inspected; its `description` drives the three description rules. -/
def checkFieldOptions (cfg : Config) (field : FieldInfo)
    (fieldFullName fieldLogName : String) (r : OperationResult) : OperationResult :=
  field.options.foldl (fun r opt =>
    if opt.1 ≠ "grpc.gateway.protoc_gen_openapiv2.options.openapiv2_field" then r
    else
      match ParseProtoMessageValues opt.2 with
      | .error e =>
        r.AddMessage ("Failed to parse option " ++ opt.1 ++ " of field " ++
          fieldLogName ++ ": " ++ e)
      | .ok parsedOptions =>
        let fieldDescription := parsedOptions.Get "description"
        let r :=
          if ¬cfg.IsCheckExcluded FieldHasNoDescription ∧ fieldDescription = "" then
            let r := r.AddError field.loc
              ("Field " ++ fieldLogName ++ " in doesn\'t have description")
            if ¬cfg.GetPrintAllDescriptors then r.addDescriptor fieldFullName else r
          else r
        let r :=
          if ¬cfg.IsCheckExcluded FieldDescriptionStartsWithCapital ∧
              fieldDescription ≠ "" ∧ ¬startsWithCapitalLetter fieldDescription then
            let r := r.AddError field.loc ("Description of field " ++ fieldLogName ++
              " doesn\'t start with capital letter")
            if ¬cfg.GetPrintAllDescriptors then r.addDescriptor fieldFullName else r
          else r
        if ¬cfg.IsCheckExcluded FieldDescriptionEndsWithDotOrQuestionMark ∧
            fieldDescription ≠ "" ∧ ¬strHasSuffix fieldDescription "." ∧
            ¬strHasSuffix fieldDescription "?" then
          let r := r.AddError field.loc ("Description of field " ++ fieldLogName ++
            " must end with dot or question mark")
          if ¬cfg.GetPrintAllDescriptors then r.addDescriptor fieldFullName else r
        else r) r

/-- checker.go:370-428 (`checkMessageFields`). -/
def checkMessageFields (cfg : Config) (fields : List FieldInfo) (r : OperationResult)
    (parsedFileFullName : String) : OperationResult :=
  fields.foldl (fun r field =>
    let fieldLogName := getNameForLogs parsedFileFullName "" 0 field.fullName
    let r := if cfg.GetPrintAllDescriptors then r.addDescriptor field.fullName else r
    if shouldDescriptorBeSkipped cfg field.fullName then
      if cfg.GetVerboseMode then
        r.AddMessage ("Field " ++ fieldLogName ++ " is skipped")
      else r
    else
      let r :=
        if ¬cfg.IsCheckExcluded FieldNameIsSnakeCase ∧ ¬matchesSnakeCaseName field.name then
          let r := r.AddError field.loc ("Name of field " ++ fieldLogName ++
            " doesn\'t match regular expression: " ++ snakeCaseNamePattern)
          if ¬cfg.GetPrintAllDescriptors then r.addDescriptor field.fullName else r
        else r
      let r :=
        if ¬cfg.IsCheckExcluded FieldHasCorrectJSONName ∧ field.hasJsonName ∧
            field.name ≠ field.jsonName then
          let r := r.AddError field.loc
            ("Field " ++ fieldLogName ++ " has incorrect json_name tag")
          if ¬cfg.GetPrintAllDescriptors then r.addDescriptor field.fullName else r
        else r
      checkFieldOptions cfg field field.fullName fieldLogName r) r

/-- checker.go:498-571 (`checkEnums`): per enum honour exclusion, then per
value honour exclusion and check the leading comment from the source-location
side table (no recorded location at all counts as no comment). -/
def checkEnums (cfg : Config) (enums : List EnumDesc) (r : OperationResult)
    (parsedFileFullName : String) : OperationResult :=
  enums.foldl (fun r enum =>
    let enumLogName := getNameForLogs parsedFileFullName "" 0 enum.fullName
    let r := if cfg.GetPrintAllDescriptors then r.addDescriptor enum.fullName else r
    if shouldDescriptorBeSkipped cfg enum.fullName then
      if cfg.GetVerboseMode then
        r.AddMessage ("Enum " ++ enumLogName ++ " is skipped")
      else r
    else
      enum.values.foldl (fun r enumValue =>
        let enumValueLogName := enumLogName ++ "." ++ enumValue.name
        let r := if cfg.GetPrintAllDescriptors then r.addDescriptor enumValue.fullName else r
        if shouldDescriptorBeSkipped cfg enumValue.fullName then
          if cfg.GetVerboseMode then
            r.AddMessage ("Enum value " ++ enumValueLogName ++ " is skipped")
          else r
        else
          if ¬cfg.IsCheckExcluded EnumValueHasComments ∧
              (¬enumValue.loc.hasPath ∨ goTrimSpace enumValue.loc.LeadingComments = "") then
            let r := r.AddError enumValue.loc
              ("Enum value " ++ enumValueLogName ++ " has no leading comments")
            if ¬cfg.GetPrintAllDescriptors then r.addDescriptor enumValue.fullName else r
          else r) r) r

/-- checker.go:335-368, the body of the `checkMessages` loop for one message: record the full
name in print-all mode; an excluded message is skipped WITHOUT descending into
its fields, nested messages or enums (`continue`); otherwise check the fields
and recurse into nested messages and enums. -/
def checkOneMessage (cfg : Config) (parsedFileFullName : String) :
    MessageDesc → OperationResult → OperationResult
  | .mk _ messageFullName _ fields nested enums, r =>
    let messageLogName := getNameForLogs parsedFileFullName "" 0 messageFullName
    let r := if cfg.GetPrintAllDescriptors then r.addDescriptor messageFullName else r
    if shouldDescriptorBeSkipped cfg messageFullName then
      if cfg.GetVerboseMode then
        r.AddMessage ("Message " ++ messageLogName ++ " is skipped")
      else r
    else
      let r := checkMessageFields cfg fields r parsedFileFullName
      let r := msgList nested r
      checkEnums cfg enums r parsedFileFullName
where msgList : List MessageDesc → OperationResult → OperationResult
  | [], r => r
  | m :: rest, r => msgList rest (checkOneMessage cfg parsedFileFullName m r)

/-- checker.go:335-368 (`checkMessages`): the loop over a message list. -/
def checkMessages (cfg : Config) (parsedFileFullName : String)
    (messages : List MessageDesc) (r : OperationResult) : OperationResult :=
  checkOneMessage.msgList cfg parsedFileFullName messages r

/-- Modelled from the spec: the walk step C3 claims for one message —
identical to `checkOneMessage` except that an excluded message\'s children are
still visited, each child undergoing its own independent exclusion check. -/
def checkOneMessageClaim (cfg : Config) (parsedFileFullName : String) :
    MessageDesc → OperationResult → OperationResult
  | .mk _ messageFullName _ fields nested enums, r =>
    let messageLogName := getNameForLogs parsedFileFullName "" 0 messageFullName
    let r := if cfg.GetPrintAllDescriptors then r.addDescriptor messageFullName else r
    if shouldDescriptorBeSkipped cfg messageFullName then
      let r :=
        if cfg.GetVerboseMode then
          r.AddMessage ("Message " ++ messageLogName ++ " is skipped")
        else r
      let r := checkMessageFields cfg fields r parsedFileFullName
      let r := msgList nested r
      checkEnums cfg enums r parsedFileFullName
    else
      let r := checkMessageFields cfg fields r parsedFileFullName
      let r := msgList nested r
      checkEnums cfg enums r parsedFileFullName
where msgList : List MessageDesc → OperationResult → OperationResult
  | [], r => r
  | m :: rest, r => msgList rest (checkOneMessageClaim cfg parsedFileFullName m r)

/-- Modelled from the spec: the list walk of the claimed behaviour. -/
def checkMessagesClaim (cfg : Config) (parsedFileFullName : String)
    (messages : List MessageDesc) (r : OperationResult) : OperationResult :=
  checkOneMessageClaim.msgList cfg parsedFileFullName messages r

/-! ### C3: excluded messages are skipped without descending -/

def c3Config : Config :=
  { printAllDescriptors := true, ExcludedDescriptors := ["pkg.Msg"] }

def c3Message : MessageDesc :=
  .mk "Msg" "pkg.Msg" {}
    [{ name := "f", fullName := "pkg.Msg.f", jsonName := "f" }] [] []

/-- C3, counterexample.  With print-all-descriptors on and `pkg.Msg`
excluded, the implemented walker records only the excluded message itself and
never visits its field, while the walk the claim describes (still recursing
into children, each with its own exclusion check — `checkMessagesClaim`,
modelled from the spec sentence) would also record the child `pkg.Msg.f`:
the tree walker does NOT recurse into the children of an excluded message. -/
theorem C3_counterexample :
    (checkMessages c3Config "pkg" [c3Message] { FilePath := "a.proto" }).descriptors =
      ["pkg.Msg"] ∧
    (checkMessagesClaim c3Config "pkg" [c3Message] { FilePath := "a.proto" }).descriptors =
      ["pkg.Msg", "pkg.Msg.f"] ∧
    checkMessages c3Config "pkg" [c3Message] { FilePath := "a.proto" } ≠
      checkMessagesClaim c3Config "pkg" [c3Message] { FilePath := "a.proto" } := by
  exact ⟨rfl, rfl, by decide⟩

theorem isPre_append (l1 : List Char) :
    ∀ l2 t : List Char, List.isPrefixOf l1 l2 = true →
      List.isPrefixOf l1 (l2 ++ t) = true := by
  induction l1 with
  | nil => intro l2 t _; cases l2 ++ t <;> rfl
  | cons a as ih =>
    intro l2 t h
    cases l2 with
    | nil => simp [List.isPrefixOf] at h
    | cons b bs =>
      simp only [List.isPrefixOf, Bool.and_eq_true, beq_iff_eq] at h ⊢
      exact ⟨h.1, ih bs t h.2⟩

/-- C3, amended: a message whose full name matches an excluded prefix is
skipped whole — the walker records it in print-all mode, optionally emits the
verbose "skipped" message, and moves to the next sibling WITHOUT running any
rule and WITHOUT recursing into its fields, nested messages or enums.  The
children need no visit to be excluded: exclusion is by full-name prefix, so
any name extending the excluded message\'s name is itself excluded. -/
theorem C3_theorem :
    (∀ (cfg : Config) (ffn : String) (msg : MessageDesc) (rest : List MessageDesc)
        (r : OperationResult),
      shouldDescriptorBeSkipped cfg msg.fullName = true →
      checkMessages cfg ffn (msg :: rest) r =
        checkMessages cfg ffn rest
          (let r1 := if cfg.GetPrintAllDescriptors then r.addDescriptor msg.fullName else r
           if cfg.GetVerboseMode then
             r1.AddMessage ("Message " ++ getNameForLogs ffn "" 0 msg.fullName ++
               " is skipped")
           else r1)) ∧
    (∀ (cfg : Config) (name suffix : String),
      shouldDescriptorBeSkipped cfg name = true →
      shouldDescriptorBeSkipped cfg (name ++ suffix) = true) := by
  constructor
  · intro cfg ffn msg rest r hskip
    rcases msg with ⟨n, fn, loc, fs, ns, es⟩
    have hskip2 : shouldDescriptorBeSkipped cfg fn = true := hskip
    unfold checkMessages
    rw [checkOneMessage.msgList]
    unfold checkOneMessage
    simp only [MessageDesc.fullName, hskip2, if_true]
  · intro cfg name suffix h
    unfold shouldDescriptorBeSkipped goHasPre at h ⊢
    simp only [List.any_eq_true] at h ⊢
    obtain ⟨p, hp, hpre⟩ := h
    refine ⟨p, hp, ?_⟩
    rw [String.data_append]
    exact isPre_append p.data name.data suffix.data hpre

/-- C3, witness: the amended theorem applied at the concrete excluded message
above, and prefix transitivity applied to its child\'s name. -/
theorem C3_witness :
    (checkMessages c3Config "pkg" [c3Message] { FilePath := "a.proto" } =
      checkMessages c3Config "pkg" []
        (let r1 := if c3Config.GetPrintAllDescriptors then
            OperationResult.addDescriptor { FilePath := "a.proto" } c3Message.fullName
          else { FilePath := "a.proto" }
         if c3Config.GetVerboseMode then
           r1.AddMessage ("Message " ++ getNameForLogs "pkg" "" 0 c3Message.fullName ++
             " is skipped")
         else r1)) ∧
    shouldDescriptorBeSkipped c3Config ("pkg.Msg" ++ ".f") = true := by
  constructor
  · exact C3_theorem.1 c3Config "pkg" c3Message [] { FilePath := "a.proto" } (by decide)
  · exact C3_theorem.2 c3Config "pkg.Msg" ".f" (by decide)

/-! ### C7: the `method_has_correct_input_name` rule -/

/-- The error texts `checkMethodOptionsCallback` can append all start with
`Path` or `Method`; this shape separates them from the input-name error. -/
def optErrShape (fp : String) (loc : SourceLocation) (e : String) : Prop :=
  ∃ msg : String, e = appendErrorLocation fp loc msg ∧
    (msg.data.head? = some 'P' ∨ msg.data.head? = some 'M')

/-- Result `r` evolves to `s` by appending option-shaped errors only, keeping the
file path. -/
def optOk (loc : SourceLocation) (r s : OperationResult) : Prop :=
  s.FilePath = r.FilePath ∧
  ∃ ex, s.Errors = r.Errors ++ ex ∧ ∀ e ∈ ex, optErrShape r.FilePath loc e

theorem optOk_refl (loc : SourceLocation) (r : OperationResult) : optOk loc r r :=
  ⟨rfl, [], by simp, by simp⟩

theorem optOk_trans (loc : SourceLocation) (r s t : OperationResult)
    (h1 : optOk loc r s) (h2 : optOk loc s t) : optOk loc r t := by
  obtain ⟨hf1, ex1, he1, hs1⟩ := h1
  obtain ⟨hf2, ex2, he2, hs2⟩ := h2
  refine ⟨hf2.trans hf1, ex1 ++ ex2, by rw [he2, he1, List.append_assoc], ?_⟩
  intro e he
  rcases List.mem_append.mp he with h | h
  · exact hs1 e h
  · rw [← hf1]
    exact hs2 e h

theorem optOk_AddMessage (loc : SourceLocation) (r : OperationResult) (v : String) :
    optOk loc r (r.AddMessage v) :=
  ⟨rfl, [], by simp [OperationResult.AddMessage], by simp⟩

theorem optOk_AddError (loc : SourceLocation) (r : OperationResult) (msg : String)
    (h : msg.data.head? = some 'P' ∨ msg.data.head? = some 'M') :
    optOk loc r (r.AddError loc msg) :=
  ⟨rfl, [appendErrorLocation r.FilePath loc msg], by simp [OperationResult.AddError],
    by simp [optErrShape]; exact ⟨msg, rfl, h⟩⟩

theorem optOk_addDescriptor (loc : SourceLocation) (r : OperationResult) (d : String) :
    optOk loc r (r.addDescriptor d) :=
  ⟨rfl, [], by simp [OperationResult.addDescriptor], by simp⟩

theorem optOk_ite (loc : SourceLocation) (r : OperationResult) (c : Prop) [Decidable c]
    (a b : OperationResult) (ha : optOk loc r a) (hb : optOk loc r b) :
    optOk loc r (if c then a else b) := by
  split
  · exact ha
  · exact hb

/-- One conditional error-plus-descriptor stage of the option rules. -/
theorem optOk_stage (loc : SourceLocation) (r : OperationResult)
    (c c2 : Prop) [Decidable c] [Decidable c2] (msg d : String)
    (h : msg.data.head? = some 'P' ∨ msg.data.head? = some 'M') :
    optOk loc r (if c then
      (if c2 then (r.AddError loc msg).addDescriptor d else r.AddError loc msg)
    else r) := by
  refine optOk_ite loc r c _ _ ?_ (optOk_refl loc r)
  refine optOk_ite loc r c2 _ _ ?_ (optOk_AddError loc r msg h)
  exact optOk_trans loc r _ _ (optOk_AddError loc r msg h)
    (optOk_addDescriptor loc _ _)


theorem checkMethodOptionsCallback_ok (cfg : Config) (method : MethodDesc)
    (mfn mln : String) (r : OperationResult) (opt : String × ProtoMessage) :
    optOk method.loc r (checkMethodOptionsCallback cfg method mfn mln r opt) := by
  unfold checkMethodOptionsCallback
  by_cases h1 : opt.1 = "google.api.http"
  · rw [if_pos h1]
    cases hp : ParseProtoMessageValues opt.2 with
    | error e => exact optOk_AddMessage _ _ _
    | ok parsedOptions =>
      refine optOk_trans _ r _ _ (optOk_stage _ r _ _ _ _ ?_) (optOk_stage _ _ _ _ _ _ ?_)
      · exact Or.inl rfl
      · exact Or.inr rfl
  · rw [if_neg h1]
    by_cases h2 : opt.1 = "grpc.gateway.protoc_gen_openapiv2.options.openapiv2_operation"
    · rw [if_pos h2]
      cases hp : ParseProtoMessageValues opt.2 with
      | error e => exact optOk_AddMessage _ _ _
      | ok parsedOptions =>
        refine optOk_trans _ r _ _ (optOk_stage _ r _ _ _ _ ?_)
          (optOk_trans _ _ _ _ (optOk_stage _ _ _ _ _ _ ?_)
            (optOk_trans _ _ _ _ (optOk_stage _ _ _ _ _ _ ?_)
              (optOk_ite _ _ _ _ _ (optOk_AddError _ _ _ ?_) (optOk_refl _ _))))
        · exact Or.inr rfl
        · exact Or.inr rfl
        · exact Or.inr rfl
        · exact Or.inr rfl
    · rw [if_neg h2]
      exact optOk_refl _ _


theorem checkMethodOptions_ok (cfg : Config) (method : MethodDesc) (mfn mln : String) :
    ∀ (opts : List (String × ProtoMessage)) (r : OperationResult),
      optOk method.loc r (opts.foldl (checkMethodOptionsCallback cfg method mfn mln) r) := by
  intro opts
  induction opts with
  | nil => intro r; exact optOk_refl _ _
  | cons o rest ih =>
    intro r
    exact optOk_trans _ r _ _ (checkMethodOptionsCallback_ok cfg method mfn mln r o) (ih _)

theorem appendErrorLocation_inj (fp : String) (loc : SourceLocation) (a b : String)
    (h : appendErrorLocation fp loc a = appendErrorLocation fp loc b) : a = b := by
  unfold appendErrorLocation at h
  by_cases hp : loc.hasPath
  · simp only [hp, if_true] at h
    have hc : (0 < loc.StartLine + 1 ∧ 0 < loc.StartColumn + 1) = True := by simp
    simp only [hc, if_true] at h
    have h2 := congrArg String.data h
    simp only [String.data_append] at h2
    exact String.ext (List.append_cancel_left h2)
  · simp only [hp, if_false, Bool.false_eq_true] at h
    simpa using h

theorem head_append_lit (c : Char) (cs : List Char) (x : String) :
    ((String.mk (c :: cs)) ++ x).data.head? = some c := by
  simp [String.data_append]

theorem strHead_append (s t : String) (c : Char) (h : s.data.head? = some c) :
    (s ++ t).data.head? = some c := by
  rw [String.data_append]
  cases hs : s.data with
  | nil => rw [hs] at h; simp at h
  | cons a as =>
    rw [hs] at h
    simp only [List.head?_cons, Option.some.injEq] at h
    simp [hs, h]

/-- C7: the `method_has_correct_input_name` rule (for a non-excluded method
with the rule enabled and the error not already present): the input-name
error — naming the expected input name `methodName ++ "Request"` — is
reported if and only if the method\'s local name matches the version-name
pattern, its input type is not `google.protobuf.Empty`, and the input type\'s
local name differs from `methodName ++ "Request"`.  In particular a method
whose name fails the version pattern is never reported by this rule. -/
theorem C7_theorem (cfg : Config) (method : MethodDesc) (r : OperationResult)
    (serviceName parsedFileFullName : String) (servicesCount : Nat)
    (hrule : cfg.IsCheckExcluded MethodHasCorrectInputName = false)
    (hskip : shouldDescriptorBeSkipped cfg method.fullName = false)
    (hfresh : appendErrorLocation r.FilePath method.loc
      ("Input of method " ++
        getNameForLogs parsedFileFullName serviceName servicesCount method.fullName ++
        " should be named as " ++ method.name ++ "Request") ∉ r.Errors) :
    (appendErrorLocation r.FilePath method.loc
      ("Input of method " ++
        getNameForLogs parsedFileFullName serviceName servicesCount method.fullName ++
        " should be named as " ++ method.name ++ "Request") ∈
      (checkMethods cfg [method] r serviceName servicesCount parsedFileFullName).Errors) ↔
    (matchesValidMethodName method.name = true ∧
     method.inputFullName ≠ "google.protobuf.Empty" ∧
     method.inputName ≠ method.name ++ "Request") := by
  unfold checkMethods
  simp only [List.foldl_cons, List.foldl_nil]
  rw [if_neg (by simp [hskip])]
  -- stage 1: the print-all descriptor record changes neither errors nor path
  have h1E : (if cfg.GetPrintAllDescriptors = true then
      r.addDescriptor method.fullName else r).Errors = r.Errors := by
    split <;> simp [OperationResult.addDescriptor]
  have h1F : (if cfg.GetPrintAllDescriptors = true then
      r.addDescriptor method.fullName else r).FilePath = r.FilePath := by
    split <;> simp [OperationResult.addDescriptor]
  generalize hg1 : (if cfg.GetPrintAllDescriptors = true then
      r.addDescriptor method.fullName else r) = r1 at h1E h1F ⊢
  -- stage 2: the name-version rule appends at most its own error
  have h2E : (if ¬cfg.IsCheckExcluded MethodHasVersion = true ∧
        ¬matchesValidMethodName method.name = true then
      if ¬cfg.GetPrintAllDescriptors = true then
        (r1.AddError method.loc ("Name of method " ++
          getNameForLogs parsedFileFullName serviceName servicesCount method.fullName ++
          " doesn\'t match regular expression: " ++
          validMethodNamePattern)).addDescriptor method.fullName
      else
        r1.AddError method.loc ("Name of method " ++
          getNameForLogs parsedFileFullName serviceName servicesCount method.fullName ++
          " doesn\'t match regular expression: " ++ validMethodNamePattern)
    else r1).Errors = r1.Errors ∨
    (if ¬cfg.IsCheckExcluded MethodHasVersion = true ∧
        ¬matchesValidMethodName method.name = true then
      if ¬cfg.GetPrintAllDescriptors = true then
        (r1.AddError method.loc ("Name of method " ++
          getNameForLogs parsedFileFullName serviceName servicesCount method.fullName ++
          " doesn\'t match regular expression: " ++
          validMethodNamePattern)).addDescriptor method.fullName
      else
        r1.AddError method.loc ("Name of method " ++
          getNameForLogs parsedFileFullName serviceName servicesCount method.fullName ++
          " doesn\'t match regular expression: " ++ validMethodNamePattern)
    else r1).Errors = r1.Errors ++ [appendErrorLocation r1.FilePath method.loc
      ("Name of method " ++
        getNameForLogs parsedFileFullName serviceName servicesCount method.fullName ++
        " doesn\'t match regular expression: " ++ validMethodNamePattern)] := by
    split
    · split <;> simp [OperationResult.AddError, OperationResult.addDescriptor]
    · left; rfl
  have h2F : (if ¬cfg.IsCheckExcluded MethodHasVersion = true ∧
        ¬matchesValidMethodName method.name = true then
      if ¬cfg.GetPrintAllDescriptors = true then
        (r1.AddError method.loc ("Name of method " ++
          getNameForLogs parsedFileFullName serviceName servicesCount method.fullName ++
          " doesn\'t match regular expression: " ++
          validMethodNamePattern)).addDescriptor method.fullName
      else
        r1.AddError method.loc ("Name of method " ++
          getNameForLogs parsedFileFullName serviceName servicesCount method.fullName ++
          " doesn\'t match regular expression: " ++ validMethodNamePattern)
    else r1).FilePath = r1.FilePath := by
    split
    · split <;> simp [OperationResult.AddError, OperationResult.addDescriptor]
    · rfl
  generalize hg2 : (if ¬cfg.IsCheckExcluded MethodHasVersion = true ∧
        ¬matchesValidMethodName method.name = true then
      if ¬cfg.GetPrintAllDescriptors = true then
        (r1.AddError method.loc ("Name of method " ++
          getNameForLogs parsedFileFullName serviceName servicesCount method.fullName ++
          " doesn\'t match regular expression: " ++
          validMethodNamePattern)).addDescriptor method.fullName
      else
        r1.AddError method.loc ("Name of method " ++
          getNameForLogs parsedFileFullName serviceName servicesCount method.fullName ++
          " doesn\'t match regular expression: " ++ validMethodNamePattern)
    else r1) = r2 at h2E h2F ⊢
  have hIhead : ("Input of method " ++
      getNameForLogs parsedFileFullName serviceName servicesCount method.fullName ++
      " should be named as " ++ method.name ++ "Request").data.head? = some 'I' := by
    refine strHead_append _ _ _ (strHead_append _ _ _ (strHead_append _ _ _
      (strHead_append _ _ _ rfl)))
  by_cases hconds : matchesValidMethodName method.name = true ∧
      method.inputFullName ≠ "google.protobuf.Empty" ∧
      method.inputName ≠ method.name ++ "Request"
  · rw [if_pos ⟨by simp [hrule], hconds⟩]
    have h3E : (if ¬cfg.GetPrintAllDescriptors = true then
        (r2.AddError method.loc ("Input of method " ++
          getNameForLogs parsedFileFullName serviceName servicesCount method.fullName ++
          " should be named as " ++ method.name ++ "Request")).addDescriptor method.fullName
      else
        r2.AddError method.loc ("Input of method " ++
          getNameForLogs parsedFileFullName serviceName servicesCount method.fullName ++
          " should be named as " ++ method.name ++ "Request")).Errors =
        r2.Errors ++ [appendErrorLocation r2.FilePath method.loc ("Input of method " ++
          getNameForLogs parsedFileFullName serviceName servicesCount method.fullName ++
          " should be named as " ++ method.name ++ "Request")] := by
      split <;> simp [OperationResult.AddError, OperationResult.addDescriptor]
    generalize hg3 : (if ¬cfg.GetPrintAllDescriptors = true then
        (r2.AddError method.loc ("Input of method " ++
          getNameForLogs parsedFileFullName serviceName servicesCount method.fullName ++
          " should be named as " ++ method.name ++ "Request")).addDescriptor method.fullName
      else
        r2.AddError method.loc ("Input of method " ++
          getNameForLogs parsedFileFullName serviceName servicesCount method.fullName ++
          " should be named as " ++ method.name ++ "Request")) = r3 at h3E ⊢
    obtain ⟨hFo, ex, hEo, hsh⟩ :=
      checkMethodOptions_ok cfg method method.fullName
        (getNameForLogs parsedFileFullName serviceName servicesCount method.fullName)
        method.options r3
    refine iff_of_true ?_ hconds
    unfold checkMethodOptions
    rw [hEo, h3E, h2F.trans h1F]
    simp
  · rw [if_neg (by rintro ⟨-, h⟩; exact hconds h)]
    obtain ⟨hFo, ex, hEo, hsh⟩ :=
      checkMethodOptions_ok cfg method method.fullName
        (getNameForLogs parsedFileFullName serviceName servicesCount method.fullName)
        method.options r2
    refine iff_of_false ?_ hconds
    intro hmem
    unfold checkMethodOptions at hmem
    rw [hEo] at hmem
    rcases List.mem_append.mp hmem with hm | hm
    · rcases h2E with h | h
      · rw [h, h1E] at hm
        exact hfresh hm
      · rw [h, h1E] at hm
        rcases List.mem_append.mp hm with hm2 | hm2
        · exact hfresh hm2
        · simp only [List.mem_singleton] at hm2
          rw [h1F] at hm2
          have heq := appendErrorLocation_inj _ _ _ _ hm2
          have hN : ("Name of method " ++
              getNameForLogs parsedFileFullName serviceName servicesCount method.fullName ++
              " doesn\'t match regular expression: " ++ validMethodNamePattern).data.head? =
              some 'N' :=
            strHead_append _ _ _ (strHead_append _ _ _ (strHead_append _ _ _ rfl))
          rw [heq, hN] at hIhead
          simp at hIhead
    · obtain ⟨msg, hemsg, hhead⟩ := hsh _ hm
      rw [h2F.trans h1F] at hemsg
      have heq := appendErrorLocation_inj _ _ _ _ hemsg
      rw [heq] at hIhead
      rcases hhead with h | h <;> rw [h] at hIhead <;> simp at hIhead

/-- The method used to witness C7. -/
def c7Method : MethodDesc :=
  { name := "GetUserV1", fullName := "pkg.Svc.GetUserV1",
    inputName := "GetUserReq", inputFullName := "pkg.GetUserReq" }

/-- C7, witness: with the default configuration, a method `GetUserV1` in a
single-service file, and input type `GetUserReq`, the rule theorem applies;
its conditions are concretely checkable (`GetUserV1` matches the version
pattern, `getUser` does not). -/
theorem C7_witness :
    ((appendErrorLocation (OperationResult.FilePath {}) c7Method.loc
      ("Input of method " ++ getNameForLogs "pkg" "Svc" 1 c7Method.fullName ++
        " should be named as " ++ c7Method.name ++ "Request") ∈
      (checkMethods {} [c7Method] {} "Svc" 1 "pkg").Errors) ↔
    (matchesValidMethodName c7Method.name = true ∧
     c7Method.inputFullName ≠ "google.protobuf.Empty" ∧
     c7Method.inputName ≠ c7Method.name ++ "Request")) ∧
    matchesValidMethodName "GetUserV1" = true ∧
    matchesValidMethodName "GetUser" = false :=
  ⟨C7_theorem {} c7Method {} "Svc" "pkg" 1 rfl rfl (by simp), by decide, by decide⟩

/-! ### C8: exit status of a check run (cmd.go `processResults`) -/

/-- cmd.go:92-118 (`processResults`): walk the results, skipping those with
no messages and no errors, and remember whether any result carried errors;
the run exits with failure exactly when the returned `isCheckFailed` flag is
set. -/
def processResults (results : List OperationResult) : Bool :=
  results.foldl (fun isCheckFailed cr =>
    if cr.Messages.length = 0 ∧ cr.Errors.length = 0 then isCheckFailed
    else if cr.Errors.length > 0 then true
    else isCheckFailed) false

theorem processResults_foldl (rs : List OperationResult) :
    ∀ acc : Bool,
      rs.foldl (fun isCheckFailed cr =>
        if cr.Messages.length = 0 ∧ cr.Errors.length = 0 then isCheckFailed
        else if cr.Errors.length > 0 then true
        else isCheckFailed) acc =
      (acc || rs.any (fun r => !r.Errors.isEmpty)) := by
  induction rs with
  | nil => intro acc; simp
  | cons cr rest ih =>
    intro acc
    rw [List.foldl_cons, ih, List.any_cons]
    have hstep : (if cr.Messages.length = 0 ∧ cr.Errors.length = 0 then acc
        else if cr.Errors.length > 0 then true
        else acc) = (acc || !cr.Errors.isEmpty) := by
      rcases hE : cr.Errors with _ | ⟨e, es⟩
      · simp [hE]
      · simp [hE]
    rw [hstep, Bool.or_assoc]

/-- C8: a check run signals failure (exit code 1) exactly when at least one
`OperationResult` carries a non-empty error list; informational messages
alone never flip the flag. -/
theorem C8_theorem :
    ∀ results : List OperationResult,
      processResults results = true ↔ ∃ r ∈ results, r.Errors ≠ [] := by
  intro results
  unfold processResults
  rw [processResults_foldl]
  simp [List.any_eq_true]

/-! ### C10: compiled files missing the requested path are silently skipped -/

/-- A compiled file handle: `linker.File`, reduced to the data `processFiles`
inspects (its path) plus an opaque payload consumed by the per-file
processor. -/
structure ParsedFile where
  path : String
  payload : Nat := 0
  deriving DecidableEq, Repr

/-- Go method `linker.Files.FindFileByPath`. -/
def FindFileByPath (files : List ParsedFile) (path : String) : Option ParsedFile :=
  files.find? (·.path = path)

/-- checker.go:83-105 (`processFiles`): per input file, compile (the compiler
is the external collaborator, passed as a function); a compile error aborts
the whole run wrapped as `failed to compile file ...: ...`; a compiled result
set that does not contain the requested path is silently skipped
(`continue`); otherwise the processor\'s result is appended. -/
def processFiles (compile : String → Except String (List ParsedFile))
    (processor : ParsedFile → OperationResult) :
    List String → Except String (List OperationResult)
  | [] => .ok []
  | file :: rest =>
    match compile file with
    | .error e => .error ("failed to compile file " ++ file ++ ": " ++ e)
    | .ok parsedFiles =>
      match FindFileByPath parsedFiles file with
      | none => processFiles compile processor rest
      | some parsedFile =>
        match processFiles compile processor rest with
        | .error e => .error e
        | .ok results => .ok (processor parsedFile :: results)

/-- C10: a file that compiles successfully but whose compiled result set has
no file with the requested path contributes neither an `OperationResult` nor
an error — it is skipped entirely — and consequently the returned result list
can be shorter than the input list (never longer). -/
theorem C10_theorem :
    (∀ (compile : String → Except String (List ParsedFile))
        (processor : ParsedFile → OperationResult)
        (f : String) (rest : List String) (fs : List ParsedFile),
      compile f = .ok fs → FindFileByPath fs f = none →
      processFiles compile processor (f :: rest) = processFiles compile processor rest) ∧
    (∀ (compile : String → Except String (List ParsedFile))
        (processor : ParsedFile → OperationResult)
        (files : List String) (rs : List OperationResult),
      processFiles compile processor files = .ok rs → rs.length ≤ files.length) := by
  constructor
  · intro compile processor f rest fs hc hf
    rw [processFiles, hc]
    simp only [hf]
  · intro compile processor files
    induction files with
    | nil =>
      intro rs h
      rw [processFiles] at h
      cases h
      simp
    | cons f rest ih =>
      intro rs h
      rw [processFiles] at h
      cases hc : compile f with
      | error e => rw [hc] at h; simp at h
      | ok fs =>
        rw [hc] at h
        simp only [] at h
        cases hf : FindFileByPath fs f with
        | none =>
          simp only [hf] at h
          have := ih rs h
          simpa using Nat.le_succ_of_le this
        | some pf =>
          simp only [hf] at h
          cases hr : processFiles compile processor rest with
          | error e => rw [hr] at h; simp at h
          | ok results =>
            rw [hr] at h
            simp only [Except.ok.injEq] at h
            subst h
            simpa using ih results hr

/-- C10, witness: with a compiler that always yields an empty compiled set,
the file `a.proto` is skipped and the result list is empty. -/
theorem C10_witness :
    processFiles (fun _ => .ok []) (fun _ => {}) ["a.proto"] =
      processFiles (fun _ => .ok []) (fun _ => {}) [] ∧
    ([] : List OperationResult).length ≤ (["a.proto"] : List String).length := by
  constructor
  · exact C10_theorem.1 (fun _ => .ok []) (fun _ => {}) "a.proto" [] [] rfl rfl
  · exact C10_theorem.2 (fun _ => .ok []) (fun _ => {}) ["a.proto"] [] rfl

end Protolinter
